import Mathlib

/-!
Shallow embedding of the `mkcore` quantum feedback-loop simulator
(`src/mkcore/{state,dynamics,measurement,signal,config,core}.py`).

Python floats and complex numbers are modelled by an arbitrary linear
ordered field `K` (instantiated with `ℝ` for analytic facts and with `ℚ`
for executable witnesses); a complex amplitude is a pair of `K`s.  The
analytic primitives the code imports from `math` / `cmath` (`sqrt`, `cos`,
`sin`, `pi`, and `exp` on purely imaginary arguments, which the code uses
only as `cos θ + i·sin θ`) are bundled into an `AnalyticOps` parameter so
that every definition stays computable; `realOps` instantiates them with
the genuine real functions.  Fallible Python code (a `raise`) is modelled
with `Except String`, carrying the source's message.  Python's seeded
`random.Random` is modelled as a stream `ℕ → K` of draws together with a
cursor, which is exactly the interface the code uses (`rng.random()`).
-/

namespace MK

/-- Complex amplitudes: a pair (real part, imaginary part) over the field. -/
abbrev Cplx (K : Type) := K × K

section Defs

variable {K : Type} [LinearOrderedField K]

/-- The zero amplitude, Python `0j`. -/
def czero : Cplx K := (0, 0)

/-- Complex addition, componentwise. -/
def cadd (x y : Cplx K) : Cplx K := (x.1 + y.1, x.2 + y.2)

/-- Complex multiplication. -/
def cmul (x y : Cplx K) : Cplx K := (x.1 * y.1 - x.2 * y.2, x.1 * y.2 + x.2 * y.1)

/-- Squared modulus of an amplitude. -/
def cnormSq (x : Cplx K) : K := x.1 * x.1 + x.2 * x.2

/-- Division of a complex amplitude by a real scalar (Python `complex / float`). -/
def cdivr (x : Cplx K) (r : K) : Cplx K := (x.1 / r, x.2 / r)

/-- Bundle of the analytic primitives the Python code takes from
`math` / `cmath`, kept abstract so definitions stay computable. -/
structure AnalyticOps (K : Type) where
  sqrt : K → K
  cos : K → K
  sin : K → K
  pi : K

/-- Python `abs` on a complex number: the square root of the squared modulus. -/
def cabs (ops : AnalyticOps K) (x : Cplx K) : K := ops.sqrt (cnormSq x)

/-- Python `cmath.exp` on the purely imaginary argument `i·theta`. -/
def cexpi (ops : AnalyticOps K) (theta : K) : Cplx K := (ops.cos theta, ops.sin theta)

/-- Sum of squared moduli of a state vector (its squared L2 norm). -/
def l2normSq (state : List (Cplx K)) : K := (state.map cnormSq).sum

/-! ### state.py -/

/-- Embeds `state.uniform_superposition`: `2^n` copies of `1/sqrt(2^n)`. -/
def uniform_superposition (ops : AnalyticOps K) (n_qubits : ℕ) : List (Cplx K) :=
  List.replicate (2 ^ n_qubits) ((1 / ops.sqrt ((2 : K) ^ n_qubits), 0) : Cplx K)

/-- Embeds `state.normalize`: the squared norm is accumulated as
`abs(amplitude) ** 2` exactly as the source writes it, a zero norm is a
domain error, and otherwise every amplitude is divided by the norm. -/
def normalize (ops : AnalyticOps K) (state : List (Cplx K)) : Except String (List (Cplx K)) :=
  let norm_sq := (state.map (fun amplitude => cabs ops amplitude ^ 2)).sum
  if norm_sq = 0 then .error "cannot normalize zero vector"
  else .ok (state.map (fun amplitude => cdivr amplitude (ops.sqrt norm_sq)))

/-! ### dynamics.py -/

/-- A 2x2 complex gate, row-major: ((g00, g01), (g10, g11)). -/
abbrev Mat2 (K : Type) := (Cplx K × Cplx K) × (Cplx K × Cplx K)

/-- Embeds `dynamics.rz`: the diagonal phase gate
`diag(exp(-i·theta/2), exp(i·theta/2))`. -/
def rz (ops : AnalyticOps K) (theta : K) : Mat2 K :=
  let half := theta / 2
  ((cexpi ops (-half), czero), (czero, cexpi ops half))

/-- Sorted insertion, the auxiliary of `pySorted`. -/
def insertSorted {α : Type} (le : α → α → Bool) (x : α) : List α → List α
  | [] => [x]
  | y :: ys => if le x y then x :: y :: ys else y :: insertSorted le x ys

/-- Python `sorted` on a decidable total order: any comparison sort agrees
with it extensionally (elements comparing equal under a total order are
equal values), modelled here by insertion sort. -/
def pySorted {α : Type} (le : α → α → Bool) (l : List α) : List α :=
  l.foldr (insertSorted le) []

/-- Python `range(0, stop, step)` for a positive `step`. -/
def rangeStep (stop step : ℕ) : List ℕ :=
  (List.range ((stop + step - 1) / step)).map (fun i => i * step)

/-- The body of the offset loop of `apply_single_qubit_gate`: rewrite the
pair `(start+offset, start+offset+stride)` of the accumulator with the 2x2
linear map applied to the pair read from the ORIGINAL state.  Out-of-range
reads (impossible when the length is `2^n_qubits`) default to `0`. -/
def gateInner (state : List (Cplx K)) (gate : Mat2 K) (stride start : ℕ)
    (result : List (Cplx K)) (offset : ℕ) : List (Cplx K) :=
  let zero_index := start + offset
  let one_index := zero_index + stride
  let zero_amp := state.getD zero_index czero
  let one_amp := state.getD one_index czero
  (result.set zero_index
      (cadd (cmul gate.1.1 zero_amp) (cmul gate.1.2 one_amp))).set one_index
    (cadd (cmul gate.2.1 zero_amp) (cmul gate.2.2 one_amp))

/-- The body of the block loop of `apply_single_qubit_gate`: the offset
loop `for offset in range(stride)` on one block. -/
def gateOuter (state : List (Cplx K)) (gate : Mat2 K) (stride : ℕ)
    (result : List (Cplx K)) (start : ℕ) : List (Cplx K) :=
  (List.range stride).foldl (gateInner state gate stride start) result

/-- Embeds `dynamics.apply_single_qubit_gate`: after the range check the
code copies the state and walks the blocks `range(0, len(state), period)`
of `period = 2*stride` indices, running the offset loop on each. -/
def apply_single_qubit_gate (state : List (Cplx K)) (gate : Mat2 K)
    (qubit n_qubits : ℕ) : Except String (List (Cplx K)) :=
  if qubit ≥ n_qubits then .error "qubit index out of range"
  else
    let stride := 1 <<< qubit
    let period := stride <<< 1
    .ok ((rangeStep state.length period).foldl (gateOuter state gate stride) state)

/-- The body of the index loop of `apply_controlled_x`: where the control
bit of the index is 1 and its target bit is 0, swap the amplitudes at the
index and at the index with the target bit flipped (both reads happen
before either write, as in the Python tuple swap). -/
def cxStep (control target : ℕ) (result : List (Cplx K)) (index : ℕ) : List (Cplx K) :=
  if (index >>> control) &&& 1 = 1 ∧ (index >>> target) &&& 1 = 0 then
    let flipped := index ^^^ (1 <<< target)
    (result.set index (result.getD flipped czero)).set flipped (result.getD index czero)
  else result

/-- Embeds `dynamics.apply_controlled_x`: one in-place pass of `cxStep`
over every index.  Qubit indices are naturals, so the Python
`0 <= control` / `0 <= target` half of the range check holds by
construction. -/
def apply_controlled_x (state : List (Cplx K)) (control target n_qubits : ℕ) :
    Except String (List (Cplx K)) :=
  if control = target then .error "control and target must be different"
  else if ¬(control < n_qubits ∧ target < n_qubits) then .error "qubit index out of range"
  else .ok ((List.range state.length).foldl (cxStep control target) state)

/-- Embeds `dynamics.entangle_chain`: controlled-X for
`control = 0 .. n_qubits-2`, `target = control+1`, errors propagating. -/
def entangle_chain (state : List (Cplx K)) (n_qubits : ℕ) :
    Except String (List (Cplx K)) :=
  (List.range (n_qubits - 1)).foldlM
    (fun s qubit => apply_controlled_x s qubit (qubit + 1) n_qubits) state

/-! ### measurement.py -/

/-- Embeds `measurement.probabilities`: squared moduli (written
`abs(amplitude) ** 2` in the source), a domain error on zero total mass,
and otherwise division by the total. -/
def probabilities (ops : AnalyticOps K) (state : List (Cplx K)) :
    Except String (List K) :=
  let probs := state.map (fun amplitude => cabs ops amplitude ^ 2)
  let total := probs.sum
  if total = 0 then .error "state has zero probability mass"
  else .ok (probs.map (fun value => value / total))

/-- The `while (1 << n_qubits) < length` loop of `sample_counts`, counting
up from 0 until `2^n ≥ length`.  The loop body runs at most `length` times
(already `2^length ≥ length`), so it is modelled with `length` fuel; once
the guard goes false the iterations leave `n` unchanged. -/
def lenLog (length : ℕ) : ℕ :=
  (List.range length).foldl (fun n_qubits _ =>
    if 1 <<< n_qubits < length then n_qubits + 1 else n_qubits) 0

/-- Python `format(index, f"0{n}b")` for `index < 2^n`: the binary digits
of `index`, most significant first, zero-padded to width `n` — but always
at least one digit, so the degenerate width `n = 0` still renders `"0"`.
That is `max n 1` digits for every `index < 2^n`.  (For `index ≥ 2^n`
Python would print more digits; `sample_counts` only renders indices
below `2^n`.) -/
def binKey (index n : ℕ) : String :=
  String.mk (((List.range (max n 1)).reverse).map
    (fun b => if (index >>> b) &&& 1 = 1 then '1' else '0'))

/-- The running-sum list built by the cumulative-probability loop. -/
def cumsum (running : K) : List K → List K
  | [] => []
  | value :: rest => (running + value) :: cumsum (running + value) rest

/-- The `for index, threshold in enumerate(...): if p: ...; break` search:
the index of the first element satisfying the predicate, if any. -/
def findFirst {α : Type} (p : α → Bool) : List α → Option ℕ
  | [] => none
  | x :: xs => if p x then some 0 else (findFirst p xs).map (fun i => i + 1)

/-- Increment of one key of the counts dictionary (the key is present,
exactly once, whenever the code increments). -/
def incr (counts : List (String × ℕ)) (key : String) : List (String × ℕ) :=
  counts.map (fun kv => if kv.1 = key then (kv.1, kv.2 + 1) else kv)

/-- One shot of the sampling loop of `sample_counts`: draw `r`, walk the
cumulative array for the first index with `r <= threshold`, and increment
that index's key (no such index: the shot leaves the counts unchanged, as
in the source, where the `for` loop just runs out). -/
def shotStep (rng : ℕ → K) (pos : ℕ) (cumulative : List K) (n_qubits : ℕ)
    (counts : List (String × ℕ)) (shot : ℕ) : List (String × ℕ) :=
  let r := rng (pos + shot)
  match findFirst (fun threshold => decide (r ≤ threshold)) cumulative with
  | some index => incr counts (binKey index n_qubits)
  | none => counts

/-- Embeds `measurement.sample_counts`.  The Python dict is an association
list in index order; the seeded `random.Random` is a stream of draws plus
a cursor, and the returned cursor accounts for the `shots` draws made. -/
def sample_counts (ops : AnalyticOps K) (state : List (Cplx K)) (shots : ℤ)
    (rng : ℕ → K) (pos : ℕ) : Except String (List (String × ℕ) × ℕ) :=
  if shots ≤ 0 then .error "shots must be positive"
  else
    let length := state.length
    let n_qubits := lenLog length
    if 2 ^ n_qubits ≠ length then .error "state vector length is not a power of two"
    else do
      let probs ← probabilities ops state
      let cumulative := cumsum 0 probs
      let counts := (List.range length).map (fun index => (binKey index n_qubits, 0))
      let final := (List.range shots.toNat).foldl
        (shotStep rng pos cumulative n_qubits) counts
      .ok (final, pos + shots.toNat)

/-- Python `counts[key]` on the association list. -/
def dictGet (counts : List (String × ℕ)) (key : String) : ℕ :=
  ((counts.find? (fun kv => kv.1 = key)).map Prod.snd).getD 0

/-- Embeds `measurement.counts_to_signal`: a domain error on an empty
dict, else the count values in lexicographic key order, as field values. -/
def counts_to_signal (counts : List (String × ℕ)) : Except String (List K) :=
  if counts = [] then .error "counts dictionary cannot be empty"
  else
    let ordered_keys := pySorted (fun a b => decide (a ≤ b)) (counts.map Prod.fst)
    .ok (ordered_keys.map (fun key => ((dictGet counts key : ℕ) : K)))

/-! ### config.py -/

/-- Mirror of `QuantumConfig` (fields are Python ints / floats). -/
structure QuantumConfig (K : Type) where
  n_qubits : ℤ
  shots : ℤ
  coupling_strength : K
  random_seed : Option ℤ

/-- The checks of `QuantumConfig.__post_init__`: construction succeeds
exactly when they hold. -/
def validQuantum (q : QuantumConfig K) : Prop :=
  0 < q.n_qubits ∧ 0 < q.shots ∧ 0 ≤ q.coupling_strength

/-- Mirror of `SignalConfig`. -/
structure SignalConfig (K : Type) where
  normalize : Bool
  epsilon : K

/-- The check of `SignalConfig.__post_init__`. -/
def validSignal (s : SignalConfig K) : Prop := 0 < s.epsilon

/-- Mirror of `FeedbackConfig`. -/
structure FeedbackConfig (K : Type) where
  pattern_rotation : K
  noise_rotation : K
  target_qubit : ℤ
  perturb_qubit : ℤ

/-- The checks of `FeedbackConfig.__post_init__`: non-negative angles and
non-negative qubit indices, and nothing else. -/
def validFeedback (f : FeedbackConfig K) : Prop :=
  0 ≤ f.pattern_rotation ∧ 0 ≤ f.noise_rotation ∧
    0 ≤ f.target_qubit ∧ 0 ≤ f.perturb_qubit

/-- Mirror of `DecoderConfig`. -/
structure DecoderConfig (K : Type) where
  threshold : K
  smoothing : K
  history : ℤ

/-- The checks of `DecoderConfig.__post_init__`. -/
def validDecoder (d : DecoderConfig K) : Prop :=
  0 < d.threshold ∧ (0 ≤ d.smoothing ∧ d.smoothing ≤ 1) ∧ 0 < d.history

/-! ### signal.py -/

/-- Mirror of `SpectrumResult`. -/
structure SpectrumResult (K : Type) where
  spectrum : List K
  peak_ratio : K

/-- Embeds `signal._real_fft`: for each frequency `k = 0 .. n/2` the inner
loop accumulates `value * exp(-2i*pi*k*t/n)` over the enumerated samples.
On an empty input the inner loop body (and its division by `n = 0`) is
never evaluated and the single `k = 0` total is `0j`, as in Python. -/
def real_fft (ops : AnalyticOps K) (signal : List K) : List (Cplx K) :=
  let values := signal
  let n := values.length
  (List.range (n / 2 + 1)).map (fun (k : ℕ) =>
    values.enum.foldl (fun total tv =>
      cadd total (cmul (tv.2, 0)
        (cexpi ops (-(2 * ops.pi * (Nat.cast k) * (Nat.cast tv.1)) / (Nat.cast n))))) czero)

/-- Python `max` on a list (only ever called on non-empty lists). -/
def listMax (l : List K) : K :=
  match l with
  | [] => 0
  | x :: xs => xs.foldl max x

/-- Python `statistics.median`: middle of the sorted list, or the mean of
the two middles for even length (only ever called on non-empty lists). -/
def median (l : List K) : K :=
  let s := pySorted (fun a b => decide (a ≤ b)) l
  let n := s.length
  if n % 2 = 1 then s.getD (n / 2) 0
  else (s.getD (n / 2 - 1) 0 + s.getD (n / 2) 0) / 2

/-- Python `statistics.mean` (only ever called on non-empty lists). -/
def listMean (l : List K) : K := l.sum / (l.length : K)

/-- Embeds `signal.fourier_spectrum`: magnitudes of the non-negative
frequency half, rescaled by `max + epsilon` when configured and non-empty. -/
def fourier_spectrum (ops : AnalyticOps K) (signal : List K)
    (config : SignalConfig K) : List K :=
  let magnitudes := (real_fft ops signal).map (cabs ops)
  if config.normalize ∧ magnitudes ≠ [] then
    let maximum := listMax magnitudes
    magnitudes.map (fun value => value / (maximum + config.epsilon))
  else magnitudes

/-- The mutable state of `SimpleSpectrumDecoder`: bounded history plus the
smoothed baseline (initially `1.0`). -/
structure DecoderState (K : Type) where
  history : List K
  baseline : K

/-- Append on a `deque(maxlen=cap)`: add on the right, then drop from the
left down to the capacity. -/
def dqAppend (cap : ℕ) (l : List K) (x : K) : List K :=
  let grown := l ++ [x]
  grown.drop (grown.length - cap)

/-- Embeds `SimpleSpectrumDecoder.update`: domain error on an empty
spectrum; otherwise `peak_ratio = max / (median + 1e-9)` (always finite in
this exact-field model, so the float `isfinite` clamp of the source cannot
fire), bounded-history append, exponential baseline smoothing, and a
result carrying a copy of the spectrum and the ratio. -/
def update (config : DecoderConfig K) (st : DecoderState K) (spectrum : List K) :
    Except String (DecoderState K × SpectrumResult K) :=
  if spectrum = [] then .error "spectrum cannot be empty"
  else
    let peak := listMax spectrum
    let med := median spectrum
    let ratio := peak / (med + 1 / 1000000000)
    let history := dqAppend config.history.toNat st.history ratio
    let averaged := listMean history
    let baseline := config.smoothing * averaged + (1 - config.smoothing) * st.baseline
    .ok (⟨history, baseline⟩, ⟨spectrum, ratio⟩)

/-- Embeds `SimpleSpectrumDecoder.detect`: a pure comparison of the
baseline against the threshold, reading but never changing the state. -/
def detect (config : DecoderConfig K) (st : DecoderState K) : Bool :=
  decide (st.baseline ≥ config.threshold)

/-! ### core.py -/

/-- The fine structure constant approximation of `core.py`. -/
def ALPHA : K := 1 / 137

/-- Mirror of `StepResult`. -/
structure StepResult (K : Type) where
  step : ℤ
  detected_pattern : Bool
  peak_ratio : K
  spectrum : List K

/-- The mutable fields of a `ThinLineCore` instance: the owned state
vector, the decoder instance, and the cursor of the owned seeded RNG. -/
structure CoreState (K : Type) where
  state : List (Cplx K)
  dec : DecoderState K
  rngPos : ℕ

/-- Embeds the state set up by `ThinLineCore.__init__` (given the draw
stream determined by `Random(random_seed)`): a fresh decoder with history
`[]` and baseline `1.0`, the RNG cursor at the start of its stream, and
`normalize(uniform_superposition(n_qubits))` as the owned state. -/
def mkCore (ops : AnalyticOps K) (quantum : QuantumConfig K) :
    Except String (CoreState K) := do
  let s ← normalize ops (uniform_superposition ops quantum.n_qubits.toNat)
  .ok ⟨s, ⟨[], 1⟩, 0⟩

/-- Embeds `ThinLineCore._apply_feedback`: `rz(pattern_rotation)` on
`target_qubit` when a pattern was detected, else `rz(noise_rotation)` on
`perturb_qubit`. -/
def apply_feedback (ops : AnalyticOps K) (feedback : FeedbackConfig K)
    (n_qubits : ℕ) (detected_pattern : Bool) (state : List (Cplx K)) :
    Except String (List (Cplx K)) :=
  let angle := if detected_pattern then feedback.pattern_rotation else feedback.noise_rotation
  let target := if detected_pattern then feedback.target_qubit else feedback.perturb_qubit
  let gate := rz ops angle
  apply_single_qubit_gate state gate target.toNat n_qubits

/-- Embeds `ThinLineCore.step`: entangle, rotate qubit 0 by
`coupling_strength * ALPHA`, sample, build the signal and spectrum, update
the decoder, decide, feed back, renormalize, and report. -/
def step (ops : AnalyticOps K) (quantum : QuantumConfig K)
    (signalCfg : SignalConfig K) (feedback : FeedbackConfig K)
    (decoderCfg : DecoderConfig K) (rng : ℕ → K) (core : CoreState K)
    (step_index : ℤ) : Except String (CoreState K × StepResult K) := do
  let nQ := quantum.n_qubits.toNat
  let s1 ← entangle_chain core.state nQ
  let rotation := rz ops (quantum.coupling_strength * ALPHA)
  let s2 ← apply_single_qubit_gate s1 rotation 0 nQ
  let (counts, pos) ← sample_counts ops s2 quantum.shots rng core.rngPos
  let signal ← counts_to_signal (K := K) counts
  let spectrum := fourier_spectrum ops signal signalCfg
  let (dec, spectrum_result) ← update decoderCfg core.dec spectrum
  let detected := detect decoderCfg dec
  let s3 ← apply_feedback ops feedback nQ detected s2
  let s4 ← normalize ops s3
  .ok (⟨s4, dec, pos⟩,
    ⟨step_index, detected, spectrum_result.peak_ratio, spectrum_result.spectrum⟩)

/-- The collection loop of `ThinLineCore.run`, appending each step's
result in order. -/
def runLoop (ops : AnalyticOps K) (quantum : QuantumConfig K)
    (signalCfg : SignalConfig K) (feedback : FeedbackConfig K)
    (decoderCfg : DecoderConfig K) (rng : ℕ → K) (core : CoreState K) :
    List ℤ → List (StepResult K) → Except String (CoreState K × List (StepResult K))
  | [], acc => .ok (core, acc)
  | idx :: rest, acc => do
    let (core, res) ← step ops quantum signalCfg feedback decoderCfg rng core idx
    runLoop ops quantum signalCfg feedback decoderCfg rng core rest (acc ++ [res])

/-- Embeds `ThinLineCore.run`: an invalid-argument error for
`num_steps ≤ 0`, before any step runs; otherwise the steps
`0 .. num_steps-1` in order. -/
def run (ops : AnalyticOps K) (quantum : QuantumConfig K)
    (signalCfg : SignalConfig K) (feedback : FeedbackConfig K)
    (decoderCfg : DecoderConfig K) (rng : ℕ → K) (core : CoreState K)
    (num_steps : ℤ) : Except String (CoreState K × List (StepResult K)) :=
  if num_steps ≤ 0 then .error "num_steps must be positive"
  else runLoop ops quantum signalCfg feedback decoderCfg rng core
    ((List.range num_steps.toNat).map Int.ofNat) []

end Defs

/-- The analytic primitives over the genuine reals. -/
noncomputable def realOps : AnalyticOps ℝ := ⟨Real.sqrt, Real.cos, Real.sin, Real.pi⟩

/-- Stand-in analytic primitives over `ℚ`, for executable witnesses whose
claims do not constrain them. -/
def ratOps : AnalyticOps ℚ := ⟨id, fun _ => 1, fun _ => 0, 0⟩

/-! ## Helper lemmas: bits -/

/-- The loop condition bit test, as a `Nat.testBit`. -/
lemma and_one_eq_one_iff (p k : ℕ) : (p >>> k) &&& 1 = 1 ↔ p.testBit k = true := by
  rw [Nat.and_one_is_mod, Nat.shiftRight_eq_div_pow, Nat.testBit_to_div_mod]
  simp

/-- The loop condition bit test, negated form. -/
lemma and_one_eq_zero_iff (p k : ℕ) : (p >>> k) &&& 1 = 0 ↔ p.testBit k = false := by
  rw [Nat.and_one_is_mod, Nat.shiftRight_eq_div_pow, Nat.testBit_to_div_mod]
  rcases Nat.mod_two_eq_zero_or_one (p / 2 ^ k) with h | h <;> simp [h]

lemma one_shiftLeft_eq (t : ℕ) : 1 <<< t = 2 ^ t := by
  rw [Nat.shiftLeft_eq, one_mul]

/-- Flipping the target bit toggles it. -/
lemma testBit_flip_self (p t : ℕ) : (p ^^^ 2 ^ t).testBit t = !p.testBit t := by
  rw [Nat.testBit_xor, Nat.testBit_two_pow]
  simp [Bool.xor_comm]

/-- Flipping the target bit leaves every other bit alone. -/
lemma testBit_flip_ne (p t k : ℕ) (hk : k ≠ t) : (p ^^^ 2 ^ t).testBit k = p.testBit k := by
  rw [Nat.testBit_xor, Nat.testBit_two_pow]
  simp [Ne.symm hk]

lemma flip_flip (p m : ℕ) : (p ^^^ m) ^^^ m = p := Nat.xor_cancel_right m p

lemma flip_lt {p n t : ℕ} (hp : p < 2 ^ n) (ht : t < n) : p ^^^ 2 ^ t < 2 ^ n :=
  Nat.xor_lt_two_pow hp (Nat.pow_lt_pow_right one_lt_two ht)

lemma flip_ge {p n t : ℕ} (hp : 2 ^ n ≤ p) (ht : t < n) : 2 ^ n ≤ p ^^^ 2 ^ t := by
  by_contra h
  push_neg at h
  have := flip_lt h ht
  rw [flip_flip] at this
  omega

lemma flip_ne (p t : ℕ) : p ^^^ 2 ^ t ≠ p := by
  intro h
  have h2 : (p ^^^ 2 ^ t).testBit t = p.testBit t := by rw [h]
  rw [testBit_flip_self] at h2
  cases p.testBit t <;> simp_all

/-! ## Helper lemmas: the controlled-X pass (dynamics.py) -/

section CxProof

variable {K : Type} [LinearOrderedField K]

/-- Whether the index-ascending pass has already swapped position `p` after
processing the indices below `m`: either `p` itself triggered the swap
(control bit 1, target bit 0), or its partner with the target bit cleared
did. -/
def cxDone (control target m p : ℕ) : Prop :=
  p.testBit control = true ∧
    ((p.testBit target = false ∧ p < m) ∨ (p.testBit target = true ∧ p ^^^ 2 ^ target < m))

instance cxDoneDecidable (control target m p : ℕ) : Decidable (cxDone control target m p) := by
  unfold cxDone
  infer_instance

lemma cxStep_of_neg {c t : ℕ} (A : List (Cplx K)) (m : ℕ)
    (h : ¬(m.testBit c = true ∧ m.testBit t = false)) : cxStep c t A m = A := by
  rw [cxStep, if_neg]
  rw [and_one_eq_one_iff, and_one_eq_zero_iff]
  exact h

/-- One pass of the controlled-X loop: after the indices below `m` have
been processed, position `p` holds the partner amplitude exactly when
`cxDone`, and the original amplitude otherwise. -/
lemma cxFold_spec {c t n : ℕ} (hct : c ≠ t) (ht : t < n)
    (s : List (Cplx K)) (hlen : s.length = 2 ^ n) :
    ∀ m, m ≤ s.length →
      ((List.range m).foldl (cxStep c t) s).length = s.length ∧
      ∀ p, ((List.range m).foldl (cxStep c t) s)[p]? =
        if cxDone c t m p then s[p ^^^ 2 ^ t]? else s[p]? := by
  intro m
  induction m with
  | zero =>
    intro _
    refine ⟨rfl, fun p => ?_⟩
    rw [if_neg]
    · simp [List.range_zero]
    · rintro ⟨-, (⟨-, h⟩ | ⟨-, h⟩)⟩ <;> omega
  | succ m ih =>
    intro hm
    obtain ⟨ihlen, ihget⟩ := ih (by omega)
    set A := (List.range m).foldl (cxStep c t) s with hA
    have hfold : (List.range (m + 1)).foldl (cxStep c t) s = cxStep c t A m := by
      rw [List.range_succ, List.foldl_append, List.foldl_cons, List.foldl_nil]
    by_cases hcond : m.testBit c = true ∧ m.testBit t = false
    · -- the index `m` triggers: swap positions `m` and `m ^^^ 2^t`
      have hmlt : m < 2 ^ n := by omega
      have hj : m ^^^ 2 ^ t < 2 ^ n := flip_lt hmlt ht
      have hjt : (m ^^^ 2 ^ t).testBit t = true := by
        rw [testBit_flip_self, hcond.2]; rfl
      have hjc : (m ^^^ 2 ^ t).testBit c = true := by
        rw [testBit_flip_ne _ _ _ hct, hcond.1]
      have hstep : cxStep c t A m =
          (A.set m (A.getD (m ^^^ (1 <<< t)) czero)).set (m ^^^ (1 <<< t))
            (A.getD m czero) := by
        rw [cxStep, if_pos]
        rw [and_one_eq_one_iff, and_one_eq_zero_iff]
        exact hcond
      have hnotdone_m : ¬ cxDone c t m m := by
        rintro ⟨-, (⟨-, h⟩ | ⟨hbit, -⟩)⟩
        · omega
        · rw [hcond.2] at hbit; cases hbit
      have hnotdone_j : ¬ cxDone c t m (m ^^^ 2 ^ t) := by
        rintro ⟨-, (⟨hbit, -⟩ | ⟨-, h⟩)⟩
        · rw [hjt] at hbit; cases hbit
        · rw [flip_flip] at h; omega
      have hAm : A[m]? = s[m]? := by rw [ihget m, if_neg hnotdone_m]
      have hAj : A[(m ^^^ 2 ^ t)]? = s[(m ^^^ 2 ^ t)]? := by
        rw [ihget _, if_neg hnotdone_j]
      refine ⟨?_, fun p => ?_⟩
      · rw [hfold, hstep]
        simp [ihlen]
      rw [hfold, hstep, one_shiftLeft_eq]
      rcases eq_or_ne p (m ^^^ 2 ^ t) with rfl | hpj
      · -- the partner position receives the original amplitude at `m`
        have : cxDone c t (m + 1) (m ^^^ 2 ^ t) := by
          refine ⟨hjc, Or.inr ⟨hjt, ?_⟩⟩
          rw [flip_flip]; omega
        rw [if_pos this, List.getElem?_set]
        rw [if_pos rfl, if_pos (by simp [ihlen, hlen, hj]), flip_flip]
        have : A.getD m czero = s.getD m czero := by
          rw [List.getD_eq_getElem?_getD, List.getD_eq_getElem?_getD, hAm]
        rw [this, List.getD_eq_getElem?_getD, List.getElem?_eq_getElem (by omega)]
        rfl
      rcases eq_or_ne p m with heq | hpm
      · -- the triggering position receives the partner amplitude
        rw [heq]
        have : cxDone c t (m + 1) m := ⟨hcond.1, Or.inl ⟨hcond.2, by omega⟩⟩
        rw [if_pos this, List.getElem?_set, if_neg (flip_ne m t),
          List.getElem?_set, if_pos rfl, if_pos (by simp [ihlen, hlen, hmlt])]
        have : A.getD (m ^^^ 2 ^ t) czero = s.getD (m ^^^ 2 ^ t) czero := by
          rw [List.getD_eq_getElem?_getD, List.getD_eq_getElem?_getD, hAj]
        rw [this, List.getD_eq_getElem?_getD, List.getElem?_eq_getElem (by omega)]
        rfl
      · -- untouched positions keep their invariant
        have hdone_iff : cxDone c t (m + 1) p ↔ cxDone c t m p := by
          constructor
          · rintro ⟨hc1, (⟨h0, hlt⟩ | ⟨h1, hlt⟩)⟩
            · rcases Nat.lt_succ_iff_lt_or_eq.mp hlt with h | heq
              · exact ⟨hc1, Or.inl ⟨h0, h⟩⟩
              · exact absurd heq hpm
            · rcases Nat.lt_succ_iff_lt_or_eq.mp hlt with h | hpart
              · exact ⟨hc1, Or.inr ⟨h1, h⟩⟩
              · exfalso
                apply hpj
                rw [← hpart, flip_flip]
          · rintro ⟨hc1, (⟨h0, hlt⟩ | ⟨h1, hlt⟩)⟩
            · exact ⟨hc1, Or.inl ⟨h0, by omega⟩⟩
            · exact ⟨hc1, Or.inr ⟨h1, by omega⟩⟩
        rw [List.getElem?_set, if_neg (Ne.symm hpj), List.getElem?_set,
          if_neg (Ne.symm hpm), ihget p, if_congr hdone_iff rfl rfl]
    · -- the index `m` does not trigger; no position changes status
      have hdone_iff : ∀ p, cxDone c t (m + 1) p ↔ cxDone c t m p := by
        intro p
        constructor
        · rintro ⟨hc1, (⟨h0, hlt⟩ | ⟨h1, hlt⟩)⟩
          · rcases Nat.lt_succ_iff_lt_or_eq.mp hlt with h | heq
            · exact ⟨hc1, Or.inl ⟨h0, h⟩⟩
            · exact absurd ⟨heq ▸ hc1, heq ▸ h0⟩ hcond
          · rcases Nat.lt_succ_iff_lt_or_eq.mp hlt with h | hpart
            · exact ⟨hc1, Or.inr ⟨h1, h⟩⟩
            · exfalso
              apply hcond
              constructor
              · rw [← hpart, testBit_flip_ne _ _ _ hct]; exact hc1
              · rw [← hpart, testBit_flip_self, h1]; rfl
        · rintro ⟨hc1, (⟨h0, hlt⟩ | ⟨h1, hlt⟩)⟩
          · exact ⟨hc1, Or.inl ⟨h0, by omega⟩⟩
          · exact ⟨hc1, Or.inr ⟨h1, by omega⟩⟩
      rw [hfold, cxStep_of_neg A m hcond]
      exact ⟨ihlen, fun p => by rw [ihget p, if_congr (hdone_iff p) rfl rfl]⟩

/-- The single pass realizes the CNOT permutation: wherever the control
bit of `i` is set, the output at `i` is the input at `i` with the target
bit flipped; everywhere else the input passes through. -/
lemma apply_controlled_x_spec {c t n : ℕ} (hct : c ≠ t) (hc : c < n) (ht : t < n)
    (s : List (Cplx K)) (hlen : s.length = 2 ^ n) :
    ∃ r, apply_controlled_x s c t n = .ok r ∧ r.length = s.length ∧
      ∀ i, r[i]? = if i.testBit c then s[i ^^^ 2 ^ t]? else s[i]? := by
  refine ⟨(List.range s.length).foldl (cxStep c t) s, ?_, ?_, ?_⟩
  · rw [apply_controlled_x, if_neg hct, if_neg (by push_neg; exact ⟨hc, ht⟩)]
  · exact (cxFold_spec hct ht s hlen s.length le_rfl).1
  · intro i
    rw [(cxFold_spec hct ht s hlen s.length le_rfl).2 i]
    by_cases hi : i < s.length
    · by_cases hb : i.testBit c
      · rw [if_pos, if_pos hb]
        refine ⟨hb, ?_⟩
        by_cases hbt : i.testBit t
        · exact Or.inr ⟨hbt, by rw [hlen]; exact flip_lt (by omega) ht⟩
        · exact Or.inl ⟨Bool.not_eq_true _ ▸ (by simpa using hbt), by omega⟩
      · rw [if_neg, if_neg hb]
        rintro ⟨hb1, -⟩
        exact hb (by rw [hb1])
    · push_neg at hi
      have h1 : s[i]? = none := List.getElem?_eq_none hi
      have h2 : s[i ^^^ 2 ^ t]? = none := by
        apply List.getElem?_eq_none
        rw [hlen] at hi ⊢
        exact flip_ge hi ht
      by_cases hd : cxDone c t s.length i <;> by_cases hb : i.testBit c <;>
        simp [hd, hb, h1, h2]

end CxProof

/-- C3: for every state vector of length `2^n` and every pair of distinct
in-range qubits, `apply_controlled_x` returns the CNOT permutation of the
input: the output amplitude at index `i` is the input amplitude at
`i XOR 2^target` whenever bit `control` of `i` is 1, and the input
amplitude at `i` otherwise — the in-place single pass realizes the
permutation itself (each qualifying pair is swapped exactly once, from its
control=1/target=0 side), and preserves the length. -/
theorem claim_c3 {K : Type} [LinearOrderedField K] {n control target : ℕ}
    (s : List (Cplx K)) (hct : control ≠ target) (hc : control < n)
    (ht : target < n) (hlen : s.length = 2 ^ n) :
    ∃ r, apply_controlled_x s control target n = .ok r ∧ r.length = 2 ^ n ∧
      ∀ i, i < 2 ^ n → r.getD i czero =
        if i.testBit control then s.getD (i ^^^ 2 ^ target) czero
        else s.getD i czero := by
  obtain ⟨r, hok, hrlen, hget⟩ := apply_controlled_x_spec hct hc ht s hlen
  refine ⟨r, hok, by rw [hrlen, hlen], fun i _ => ?_⟩
  rw [List.getD_eq_getElem?_getD, hget i]
  by_cases hb : i.testBit control <;>
    simp [hb, List.getD_eq_getElem?_getD]

/-- Witness for C3: the CNOT pass with control 0, target 1 on a concrete
4-amplitude rational state. -/
theorem claim_c3_witness :
    (0 : ℕ) ≠ 1 ∧ (0 : ℕ) < 2 ∧ (1 : ℕ) < 2 ∧
      ([((1 : ℚ), (0 : ℚ)), (2, 0), (3, 0), (4, 0)] : List (Cplx ℚ)).length = 2 ^ 2 ∧
      (∃ r, apply_controlled_x ([((1 : ℚ), (0 : ℚ)), (2, 0), (3, 0), (4, 0)]) 0 1 2 = .ok r ∧
        r.length = 2 ^ 2 ∧
        ∀ i, i < 2 ^ 2 → r.getD i czero =
          if i.testBit 0 then
            ([((1 : ℚ), (0 : ℚ)), (2, 0), (3, 0), (4, 0)] : List (Cplx ℚ)).getD (i ^^^ 2 ^ 1) czero
          else ([((1 : ℚ), (0 : ℚ)), (2, 0), (3, 0), (4, 0)] : List (Cplx ℚ)).getD i czero) :=
  ⟨by decide, by decide, by decide, by decide,
    claim_c3 _ (by decide) (by decide) (by decide) (by decide)⟩

/-! ## Helper lemmas: the single-qubit gate pass (dynamics.py) -/

section GateProof

variable {K : Type} [LinearOrderedField K]

/-- The value the gate pass leaves at position `p`: the 2x2 map applied to
the pair of `p`, from the row picked by whether `p` sits in the lower or
upper half of its block. -/
def gateVal (s : List (Cplx K)) (g : Mat2 K) (stride p : ℕ) : Cplx K :=
  if p % (2 * stride) < stride then
    cadd (cmul g.1.1 (s.getD p czero)) (cmul g.1.2 (s.getD (p + stride) czero))
  else
    cadd (cmul g.2.1 (s.getD (p - stride) czero)) (cmul g.2.2 (s.getD p czero))

lemma mod_block {start M o : ℕ} (hstart : start % M = 0) (ho : o < M) :
    (start + o) % M = o := by
  rw [Nat.add_mod, hstart, zero_add, Nat.mod_mod_of_dvd _ dvd_rfl, Nat.mod_eq_of_lt ho]

lemma foldl_length_invariant {α β : Type} (f : List β → α → List β)
    (h : ∀ B a, (f B a).length = B.length) :
    ∀ (l : List α) (B : List β), (l.foldl f B).length = B.length := by
  intro l
  induction l with
  | nil => intro B; rfl
  | cons a l ih => intro B; rw [List.foldl_cons, ih, h]

lemma gateInner_length (s : List (Cplx K)) (g : Mat2 K) (stride start : ℕ)
    (B : List (Cplx K)) (o : ℕ) : (gateInner s g stride start B o).length = B.length := by
  simp [gateInner]

/-- The offset loop on one block: positions inside the processed halves of
the block hold `gateVal`, everything else is untouched. -/
lemma gateInner_fold (s : List (Cplx K)) (g : Mat2 K) {stride start : ℕ}
    (hstride : 0 < stride) (hstart : start % (2 * stride) = 0)
    (acc : List (Cplx K)) (hL : start + 2 * stride ≤ acc.length) :
    ∀ o, o ≤ stride →
      ((List.range o).foldl (gateInner s g stride start) acc).length = acc.length ∧
      ∀ p, ((List.range o).foldl (gateInner s g stride start) acc)[p]? =
        if (start ≤ p ∧ p < start + o) ∨
            (start + stride ≤ p ∧ p < start + stride + o)
        then some (gateVal s g stride p) else acc[p]? := by
  intro o
  induction o with
  | zero =>
    intro _
    refine ⟨rfl, fun p => ?_⟩
    rw [if_neg (by omega)]
    simp [List.range_zero]
  | succ o ih =>
    intro ho
    obtain ⟨ihlen, ihget⟩ := ih (by omega)
    set B := (List.range o).foldl (gateInner s g stride start) acc with hB
    have hfold : (List.range (o + 1)).foldl (gateInner s g stride start) acc =
        gateInner s g stride start B o := by
      rw [List.range_succ, List.foldl_append, List.foldl_cons, List.foldl_nil]
    have hstep : gateInner s g stride start B o =
        (B.set (start + o)
            (cadd (cmul g.1.1 (s.getD (start + o) czero))
              (cmul g.1.2 (s.getD (start + o + stride) czero)))).set (start + o + stride)
          (cadd (cmul g.2.1 (s.getD (start + o) czero))
            (cmul g.2.2 (s.getD (start + o + stride) czero))) := rfl
    refine ⟨by rw [hfold, hstep]; simp [ihlen], fun p => ?_⟩
    rw [hfold, hstep]
    rcases eq_or_ne p (start + o + stride) with heq | hpw
    · rw [heq, List.getElem?_set, if_pos rfl,
        if_pos (by simp only [List.length_set, ihlen]; omega), if_pos (by omega)]
      have hmod : (start + (o + stride)) % (2 * stride) = o + stride :=
        mod_block hstart (by omega)
      rw [gateVal, if_neg (by rw [← Nat.add_assoc] at hmod; rw [hmod]; omega)]
      have : start + o + stride - stride = start + o := by omega
      rw [this]
    rcases eq_or_ne p (start + o) with heq | hpz
    · rw [heq, List.getElem?_set, if_neg (by omega), List.getElem?_set, if_pos rfl,
        if_pos (by simp only [List.length_set, ihlen]; omega), if_pos (by omega)]
      have hmod : (start + o) % (2 * stride) = o := mod_block hstart (by omega)
      rw [gateVal, if_pos (by rw [hmod]; omega)]
    · have hiff : ((start ≤ p ∧ p < start + o) ∨
          (start + stride ≤ p ∧ p < start + stride + o)) ↔
          ((start ≤ p ∧ p < start + (o + 1)) ∨
          (start + stride ≤ p ∧ p < start + stride + (o + 1))) := by omega
      rw [List.getElem?_set, if_neg (Ne.symm hpw), List.getElem?_set,
        if_neg (Ne.symm hpz), ihget p, if_congr hiff rfl rfl]

/-- The block loop: after `k` blocks the first `k * period` positions hold
`gateVal` and the rest are still the original state. -/
lemma gateOuter_fold (s : List (Cplx K)) (g : Mat2 K) {stride : ℕ}
    (hstride : 0 < stride) {L : ℕ} (hlen : s.length = L) :
    ∀ k, k * (2 * stride) ≤ L →
      (((List.range k).map (fun i => i * (2 * stride))).foldl
          (gateOuter s g stride) s).length = L ∧
      ∀ p, (((List.range k).map (fun i => i * (2 * stride))).foldl
          (gateOuter s g stride) s)[p]? =
        if p < k * (2 * stride) then some (gateVal s g stride p) else s[p]? := by
  intro k
  induction k with
  | zero =>
    intro _
    refine ⟨hlen, fun p => ?_⟩
    rw [if_neg (by simp)]
    simp [List.range_zero]
  | succ k ih =>
    intro hk
    have hsucc : (k + 1) * (2 * stride) = k * (2 * stride) + 2 * stride := by ring
    rw [hsucc] at hk
    obtain ⟨ihlen, ihget⟩ := ih (le_trans (Nat.le_add_right _ _) hk)
    set B := ((List.range k).map (fun i => i * (2 * stride))).foldl
      (gateOuter s g stride) s with hB
    have hfold : ((List.range (k + 1)).map (fun i => i * (2 * stride))).foldl
        (gateOuter s g stride) s = gateOuter s g stride B (k * (2 * stride)) := by
      rw [List.range_succ, List.map_append, List.foldl_append, List.map_cons,
        List.foldl_cons, List.map_nil, List.foldl_nil]
    obtain ⟨hilen, higet⟩ := gateInner_fold s g hstride
      (Nat.mul_mod_left k (2 * stride)) B (by rw [ihlen]; exact hk) stride le_rfl
    rw [hfold]
    refine ⟨by rw [gateOuter, hilen, ihlen], fun p => ?_⟩
    rw [gateOuter, higet p, hsucc]
    generalize hX : k * (2 * stride) = X at ihget ⊢
    by_cases hin : (X ≤ p ∧ p < X + stride) ∨ (X + stride ≤ p ∧ p < X + stride + stride)
    · rw [if_pos hin, if_pos (by omega)]
    · have hiff : p < X ↔ p < X + 2 * stride := by omega
      rw [if_neg hin, ihget p, if_congr hiff rfl rfl]

/-- The full gate pass on a `2^n`-element state: every position `p` ends
up holding `gateVal` (the 2x2 map applied to the pair of `p`). -/
lemma apply_single_qubit_gate_spec {n q : ℕ} (hq : q < n)
    (s : List (Cplx K)) (g : Mat2 K) (hlen : s.length = 2 ^ n) :
    ∃ r, apply_single_qubit_gate s g q n = .ok r ∧ r.length = 2 ^ n ∧
      ∀ p, r[p]? = if p < 2 ^ n then some (gateVal s g (2 ^ q) p) else s[p]? := by
  have hpos : (0 : ℕ) < 2 ^ (q + 1) := Nat.two_pow_pos (q + 1)
  have hper : (2 : ℕ) * 2 ^ q = 2 ^ (q + 1) := by rw [pow_succ, Nat.mul_comm]
  obtain ⟨m, hm⟩ : 2 ^ (q + 1) ∣ 2 ^ n := pow_dvd_pow 2 (by omega)
  have hcount : (2 ^ n + 2 ^ (q + 1) - 1) / 2 ^ (q + 1) = m := by
    rw [hm, Nat.mul_comm]
    have h1 : m * 2 ^ (q + 1) + 2 ^ (q + 1) - 1 = 2 ^ (q + 1) * m + (2 ^ (q + 1) - 1) := by
      rw [Nat.mul_comm m]
      omega
    rw [h1, Nat.mul_add_div hpos, Nat.div_eq_of_lt (by omega), Nat.add_zero]
  have hmlen : m * (2 * 2 ^ q) ≤ 2 ^ n := by
    rw [hper, hm, Nat.mul_comm]
  have hrange : rangeStep s.length ((1 <<< q) <<< 1) =
      (List.range m).map (fun i => i * (2 * 2 ^ q)) := by
    rw [one_shiftLeft_eq, Nat.shiftLeft_eq, pow_one, rangeStep, hlen]
    have : (2 : ℕ) ^ q * 2 = 2 ^ (q + 1) := by rw [pow_succ]
    rw [this, hcount, hper]
  obtain ⟨hflen, hfget⟩ := gateOuter_fold s g (Nat.two_pow_pos q) hlen m hmlen
  refine ⟨((List.range m).map (fun i => i * (2 * 2 ^ q))).foldl
    (gateOuter s g (2 ^ q)) s, ?_, hflen, fun p => ?_⟩
  · rw [apply_single_qubit_gate, if_neg (by omega)]
    show Except.ok ((rangeStep s.length ((1 <<< q) <<< 1)).foldl
      (gateOuter s g (1 <<< q)) s) = _
    rw [hrange, one_shiftLeft_eq]
  · rw [hfget p]
    have hfull : m * (2 * 2 ^ q) = 2 ^ n := by
      rw [hper, hm, Nat.mul_comm]
    rw [hfull]

end GateProof

section Linearity

variable {K : Type} [LinearOrderedField K]

lemma zipWith_getD {α β γ : Type} (f : α → β → γ) :
    ∀ (l1 : List α) (l2 : List β) (i : ℕ) (d1 : α) (d2 : β) (d3 : γ),
      i < l1.length → i < l2.length →
      (List.zipWith f l1 l2).getD i d3 = f (l1.getD i d1) (l2.getD i d2) := by
  intro l1
  induction l1 with
  | nil => intro l2 i _ _ _ h _; simp at h
  | cons x l1 ih =>
    intro l2 i d1 d2 d3 h1 h2
    cases l2 with
    | nil => simp at h2
    | cons y l2 =>
      cases i with
      | zero => rfl
      | succ i =>
        simp only [List.zipWith_cons_cons, List.getD_cons_succ]
        exact ih l2 i d1 d2 d3 (by simpa using h1) (by simpa using h2)

lemma getElem?_eq_some_getD {α : Type} (l : List α) (i : ℕ) (d : α)
    (h : i < l.length) : l[i]? = some (l.getD i d) := by
  rw [List.getD_eq_getElem?_getD, List.getElem?_eq_getElem h]
  rfl

lemma cmul_linear_pair (a b g0 g1 u1 v1 u2 v2 : Cplx K) :
    cadd (cmul g0 (cadd (cmul a u1) (cmul b u2)))
        (cmul g1 (cadd (cmul a v1) (cmul b v2))) =
      cadd (cmul a (cadd (cmul g0 u1) (cmul g1 v1)))
        (cmul b (cadd (cmul g0 u2) (cmul g1 v2))) := by
  simp only [cadd, cmul, Prod.mk.injEq]
  constructor <;> ring

lemma lower_half_add_stride_lt {p q n : ℕ} (hp : p < 2 ^ n) (hq : q < n)
    (h : p % (2 * 2 ^ q) < 2 ^ q) : p + 2 ^ q < 2 ^ n := by
  obtain ⟨m, hm⟩ : (2 * 2 ^ q) ∣ 2 ^ n := by
    have h2 : (2 : ℕ) * 2 ^ q = 2 ^ (q + 1) := by rw [pow_succ, Nat.mul_comm]
    rw [h2]
    exact pow_dvd_pow 2 (by omega)
  have hper : 0 < 2 * 2 ^ q := by positivity
  have hdm := Nat.div_add_mod p (2 * 2 ^ q)
  have hdlt : p / (2 * 2 ^ q) < m := by
    rw [Nat.div_lt_iff_lt_mul hper]
    rw [hm, Nat.mul_comm] at hp
    exact hp
  have hmul : (2 * 2 ^ q) * (p / (2 * 2 ^ q) + 1) ≤ (2 * 2 ^ q) * m :=
    Nat.mul_le_mul_left _ hdlt
  rw [Nat.mul_add, Nat.mul_one] at hmul
  rw [hm]
  linarith [hdm, h, hmul]

/-- The pointwise gate formula is linear in the state. -/
lemma gateVal_linear {n q : ℕ} (g : Mat2 K) (a b : Cplx K)
    (s1 s2 : List (Cplx K)) (hq : q < n)
    (h1 : s1.length = 2 ^ n) (h2 : s2.length = 2 ^ n) {p : ℕ} (hp : p < 2 ^ n) :
    gateVal (List.zipWith (fun x y => cadd (cmul a x) (cmul b y)) s1 s2) g (2 ^ q) p =
      cadd (cmul a (gateVal s1 g (2 ^ q) p)) (cmul b (gateVal s2 g (2 ^ q) p)) := by
  rw [gateVal, gateVal, gateVal]
  by_cases hb : p % (2 * 2 ^ q) < 2 ^ q
  · rw [if_pos hb, if_pos hb, if_pos hb]
    have hps : p + 2 ^ q < 2 ^ n := lower_half_add_stride_lt hp hq hb
    rw [zipWith_getD _ s1 s2 p czero czero czero (by omega) (by omega),
      zipWith_getD _ s1 s2 (p + 2 ^ q) czero czero czero (by omega) (by omega)]
    exact cmul_linear_pair a b g.1.1 g.1.2 _ _ _ _
  · rw [if_neg hb, if_neg hb, if_neg hb]
    have hps : p - 2 ^ q < 2 ^ n := lt_of_le_of_lt (Nat.sub_le p _) hp
    rw [zipWith_getD _ s1 s2 p czero czero czero (by omega) (by omega),
      zipWith_getD _ s1 s2 (p - 2 ^ q) czero czero czero (by omega) (by omega)]
    exact cmul_linear_pair a b g.2.1 g.2.2 _ _ _ _

end Linearity

/-- C6: `apply_single_qubit_gate` is linear and length-preserving: for any
2x2 gate, in-range qubit, and two states of the same power-of-two length,
applying the gate to the componentwise combination `a*s1 + b*s2` (complex
scalars `a`, `b`) yields the same combination of the individually gated
states, and every output has the length of its input. -/
theorem claim_c6 {K : Type} [LinearOrderedField K] {n q : ℕ} (g : Mat2 K)
    (a b : Cplx K) (s1 s2 : List (Cplx K)) (hq : q < n)
    (h1 : s1.length = 2 ^ n) (h2 : s2.length = 2 ^ n) :
    ∃ r1 r2 rc,
      apply_single_qubit_gate s1 g q n = .ok r1 ∧
      apply_single_qubit_gate s2 g q n = .ok r2 ∧
      apply_single_qubit_gate
        (List.zipWith (fun x y => cadd (cmul a x) (cmul b y)) s1 s2) g q n = .ok rc ∧
      rc = List.zipWith (fun x y => cadd (cmul a x) (cmul b y)) r1 r2 ∧
      r1.length = s1.length ∧ r2.length = s2.length ∧
      rc.length = (List.zipWith (fun x y => cadd (cmul a x) (cmul b y)) s1 s2).length := by
  have hclen : (List.zipWith (fun x y => cadd (cmul a x) (cmul b y)) s1 s2).length = 2 ^ n := by
    rw [List.length_zipWith, h1, h2, Nat.min_self]
  obtain ⟨r1, hok1, hlen1, hget1⟩ := apply_single_qubit_gate_spec hq s1 g h1
  obtain ⟨r2, hok2, hlen2, hget2⟩ := apply_single_qubit_gate_spec hq s2 g h2
  obtain ⟨rc, hokc, hlenc, hgetc⟩ := apply_single_qubit_gate_spec hq _ g hclen
  refine ⟨r1, r2, rc, hok1, hok2, hokc, ?_, by omega, by omega, by omega⟩
  apply List.ext_getElem?
  intro p
  rw [hgetc p]
  by_cases hp : p < 2 ^ n
  · rw [if_pos hp,
      getElem?_eq_some_getD _ p czero (by rw [List.length_zipWith]; omega),
      zipWith_getD _ r1 r2 p czero czero czero (by omega) (by omega)]
    have e1 : r1.getD p czero = gateVal s1 g (2 ^ q) p := by
      rw [List.getD_eq_getElem?_getD, hget1 p, if_pos hp]
      rfl
    have e2 : r2.getD p czero = gateVal s2 g (2 ^ q) p := by
      rw [List.getD_eq_getElem?_getD, hget2 p, if_pos hp]
      rfl
    rw [e1, e2, gateVal_linear g a b s1 s2 hq h1 h2 hp]
  · rw [if_neg hp]
    have h1n : (List.zipWith (fun x y => cadd (cmul a x) (cmul b y)) s1 s2)[p]? = none :=
      List.getElem?_eq_none (by omega)
    have h2n : (List.zipWith (fun x y => cadd (cmul a x) (cmul b y)) r1 r2)[p]? = none :=
      List.getElem?_eq_none (by rw [List.length_zipWith]; omega)
    rw [h1n, h2n]

/-- Witness for C6: linearity on a concrete gate, scalars and pair of
two-amplitude rational states. -/
theorem claim_c6_witness :
    (0 : ℕ) < 1 ∧
    ([((1 : ℚ), (0 : ℚ)), (0, 1)] : List (Cplx ℚ)).length = 2 ^ 1 ∧
    ([((1 : ℚ), (1 : ℚ)), (2, 0)] : List (Cplx ℚ)).length = 2 ^ 1 ∧
    (∃ r1 r2 rc,
      apply_single_qubit_gate ([((1 : ℚ), (0 : ℚ)), (0, 1)])
        (((1, 0), (2, 0)), ((3, 0), (4, 0))) 0 1 = .ok r1 ∧
      apply_single_qubit_gate ([((1 : ℚ), (1 : ℚ)), (2, 0)])
        (((1, 0), (2, 0)), ((3, 0), (4, 0))) 0 1 = .ok r2 ∧
      apply_single_qubit_gate
        (List.zipWith (fun x y => cadd (cmul ((2 : ℚ), (1 : ℚ)) x) (cmul ((0 : ℚ), (3 : ℚ)) y))
          ([((1 : ℚ), (0 : ℚ)), (0, 1)]) ([((1 : ℚ), (1 : ℚ)), (2, 0)]))
        (((1, 0), (2, 0)), ((3, 0), (4, 0))) 0 1 = .ok rc ∧
      rc = List.zipWith
        (fun x y => cadd (cmul ((2 : ℚ), (1 : ℚ)) x) (cmul ((0 : ℚ), (3 : ℚ)) y)) r1 r2 ∧
      r1.length = ([((1 : ℚ), (0 : ℚ)), (0, 1)] : List (Cplx ℚ)).length ∧
      r2.length = ([((1 : ℚ), (1 : ℚ)), (2, 0)] : List (Cplx ℚ)).length ∧
      rc.length = (List.zipWith
        (fun x y => cadd (cmul ((2 : ℚ), (1 : ℚ)) x) (cmul ((0 : ℚ), (3 : ℚ)) y))
        ([((1 : ℚ), (0 : ℚ)), (0, 1)]) ([((1 : ℚ), (1 : ℚ)), (2, 0)])).length) :=
  ⟨by decide, by decide, by decide,
    claim_c6 (((1, 0), (2, 0)), ((3, 0), (4, 0))) ((2 : ℚ), (1 : ℚ)) ((0 : ℚ), (3 : ℚ))
      _ _ (by decide) (by decide) (by decide)⟩

/-! ## Decoder claims (signal.py) -/

section DecoderClaims

variable {K : Type} [LinearOrderedField K]

lemma dqAppend_length_le (cap : ℕ) (l : List K) (x : K) :
    (dqAppend cap l x).length ≤ cap := by
  simp only [dqAppend, List.length_drop]
  omega

/-- C7: on an empty spectrum `update` raises a domain error (and, the
embedding being functional, hands back no new decoder state, so history
and baseline stay what they were); on a non-empty spectrum it returns
`peak_ratio = max / (median + 1e-9)` (the float non-finiteness clamp of
the source cannot fire over an exact field), pushes the ratio onto the
bounded history — whose length never exceeds the configured capacity —
exponentially smooths the baseline, and returns a copy of the spectrum
with the ratio. -/
theorem claim_c7 (config : DecoderConfig K) (st : DecoderState K) (spectrum : List K) :
    (spectrum = [] → update config st spectrum = .error "spectrum cannot be empty") ∧
    (spectrum ≠ [] → ∃ st2 res, update config st spectrum = .ok (st2, res) ∧
      res.peak_ratio = listMax spectrum / (median spectrum + 1 / 1000000000) ∧
      res.spectrum = spectrum ∧
      st2.history = dqAppend config.history.toNat st.history res.peak_ratio ∧
      st2.history.length ≤ config.history.toNat ∧
      st2.baseline = config.smoothing * listMean st2.history +
        (1 - config.smoothing) * st.baseline) := by
  constructor
  · intro h
    rw [update, if_pos h]
  · intro h
    refine ⟨_, _, by rw [update, if_neg h], rfl, rfl, rfl, ?_, rfl⟩
    exact dqAppend_length_le _ _ _

/-- Witness for C7: the empty-spectrum error and a concrete non-empty
update over `ℚ`. -/
theorem claim_c7_witness :
    (update (⟨2, 1/4, 3⟩ : DecoderConfig ℚ) ⟨[5], 1⟩ [] =
      .error "spectrum cannot be empty") ∧
    (∃ st2 res, update (⟨2, 1/4, 3⟩ : DecoderConfig ℚ) ⟨[5], 1⟩ [1, 2] = .ok (st2, res) ∧
      res.peak_ratio = listMax [1, 2] / (median [1, 2] + 1 / 1000000000) ∧
      res.spectrum = [1, 2] ∧
      st2.history = dqAppend (3 : ℤ).toNat [5] res.peak_ratio ∧
      st2.history.length ≤ (3 : ℤ).toNat ∧
      st2.baseline = (1/4 : ℚ) * listMean st2.history + (1 - 1/4) * 1) :=
  ⟨(claim_c7 ⟨2, 1/4, 3⟩ ⟨[5], 1⟩ []).1 rfl,
    (claim_c7 ⟨2, 1/4, 3⟩ ⟨[5], 1⟩ [1, 2]).2 (by decide)⟩

/-- C8: `detect` is a pure read: it is a plain function of the decoder
state (the functional embedding passes the state by value and returns only
the Boolean, so no call can change the history or the baseline), and its
answer is exactly the comparison of the baseline against the threshold,
hence identical across repeated calls between updates. -/
theorem claim_c8 (config : DecoderConfig K) (st : DecoderState K) :
    detect config st = decide (st.baseline ≥ config.threshold) ∧
    (detect config st = true ↔ config.threshold ≤ st.baseline) := by
  refine ⟨rfl, ?_⟩
  rw [detect]
  exact decide_eq_true_iff

/-! ## The empty-signal spectrum (C10, signal.py) -/

/-- C10: `fourier_spectrum` on the empty signal raises nothing and returns
the one-element spectrum `[0]`: the single frequency `k = 0` accumulates
over zero samples, giving magnitude `abs(0j) = sqrt 0 = 0`, and the
optional rescaling maps it to `0 / (0 + epsilon) = 0` — even though the
neighbouring operations reject empty inputs (`counts_to_signal` and
`update` both raise domain errors, restated here). -/
theorem claim_c10 (ops : AnalyticOps K) (config : SignalConfig K)
    (h0 : ops.sqrt 0 = 0) :
    fourier_spectrum ops ([] : List K) config = [0] ∧
    counts_to_signal (K := K) [] = .error "counts dictionary cannot be empty" ∧
    (∀ (dc : DecoderConfig K) (st : DecoderState K),
      update dc st [] = .error "spectrum cannot be empty") := by
  refine ⟨?_, rfl, fun dc st => rfl⟩
  have hfft : real_fft ops ([] : List K) = [czero] := by
    simp only [real_fft, List.length_nil, Nat.zero_div, Nat.zero_add]
    rw [List.range_succ, List.range_zero, List.nil_append]
    simp only [List.map_cons, List.map_nil, List.enum_nil, List.foldl_nil]
  have habs : cabs ops czero = 0 := by
    rw [cabs, cnormSq, czero]
    simpa using h0
  rw [fourier_spectrum, hfft]
  cases hb : config.normalize with
  | false => simp [hb, habs]
  | true =>
    simp only [hb, List.map_cons, List.map_nil, habs, true_and, ne_eq,
      reduceCtorEq, not_false_eq_true, if_pos]
    rw [listMax]
    simp

/-- Witness for C10 over `ℚ` with the identity standing in for `sqrt`
(the claim constrains it only at `0`). -/
theorem claim_c10_witness :
    ratOps.sqrt 0 = 0 ∧
    (fourier_spectrum ratOps ([] : List ℚ) ⟨true, 1⟩ = [0] ∧
      counts_to_signal (K := ℚ) [] = .error "counts dictionary cannot be empty" ∧
      (∀ (dc : DecoderConfig ℚ) (st : DecoderState ℚ),
        update dc st [] = .error "spectrum cannot be empty")) :=
  ⟨rfl, claim_c10 ratOps ⟨true, 1⟩ rfl⟩

end DecoderClaims

/-! ## Determinism (C5, core.py) -/

/-- C5: the orchestrator is deterministic given its configurations and
seed.  Python's `Random(seed)` yields one fixed draw stream per seed,
modelled by an arbitrary stream family `streamOf`; with equal
configuration bundles (hence equal seeds) two independently constructed
cores return bit-identical `run` outputs — every `StepResult` field:
`peak_ratio`, `detected_pattern`, and the spectra — because the embedding
of construct-then-run is a pure function of the configurations and the
seed's stream. -/
theorem claim_c5 {K : Type} [LinearOrderedField K] (ops : AnalyticOps K)
    (streamOf : Option ℤ → ℕ → K) (q1 q2 : QuantumConfig K)
    (s1 s2 : SignalConfig K) (f1 f2 : FeedbackConfig K) (d1 d2 : DecoderConfig K)
    (k1 k2 : ℤ) (hq : q1 = q2) (hs : s1 = s2) (hf : f1 = f2) (hd : d1 = d2)
    (hk : k1 = k2) :
    (do
      let c ← mkCore ops q1
      run ops q1 s1 f1 d1 (streamOf q1.random_seed) c k1) =
    (do
      let c ← mkCore ops q2
      run ops q2 s2 f2 d2 (streamOf q2.random_seed) c k2) := by
  subst hq hs hf hd hk
  rfl

/-- Witness for C5: two identically configured rational cores. -/
theorem claim_c5_witness :
    (do
      let c ← mkCore ratOps (⟨2, 3, 0, some 42⟩ : QuantumConfig ℚ)
      run ratOps ⟨2, 3, 0, some 42⟩ ⟨true, 1⟩ ⟨1, 1, 0, 1⟩ ⟨2, 1, 5⟩
        ((fun _ _ => (0 : ℚ)) (some (42 : ℤ))) c 2) =
    (do
      let c ← mkCore ratOps (⟨2, 3, 0, some 42⟩ : QuantumConfig ℚ)
      run ratOps ⟨2, 3, 0, some 42⟩ ⟨true, 1⟩ ⟨1, 1, 0, 1⟩ ⟨2, 1, 5⟩
        ((fun _ _ => (0 : ℚ)) (some (42 : ℤ))) c 2) :=
  claim_c5 ratOps (fun _ _ => (0 : ℚ)) ⟨2, 3, 0, some 42⟩ ⟨2, 3, 0, some 42⟩
    ⟨true, 1⟩ ⟨true, 1⟩ ⟨1, 1, 0, 1⟩ ⟨1, 1, 0, 1⟩ ⟨2, 1, 5⟩ ⟨2, 1, 5⟩ 2 2
    rfl rfl rfl rfl rfl

/-! ## Feedback-qubit configuration errors (C9, config.py / core.py) -/

/-- Counterexample to C9 as stated: all four configuration bundles pass
their construction-time validation (`FeedbackConfig` only checks that the
qubit indices are non-negative, never against `n_qubits`), yet the very
first `step` of a 1-qubit core raises the qubit-range error when the
feedback rotation is applied to `perturb_qubit = 7` (and `target_qubit =
5` would fail the same way had the decoder detected a pattern). -/
theorem claim_c9_counterexample :
    validQuantum (⟨1, 1, 0, none⟩ : QuantumConfig ℚ) ∧
    validSignal (⟨true, 1⟩ : SignalConfig ℚ) ∧
    validFeedback (⟨1/20, 1/50, 5, 7⟩ : FeedbackConfig ℚ) ∧
    validDecoder (⟨2, 1, 5⟩ : DecoderConfig ℚ) ∧
    (do
      let c ← mkCore ratOps (⟨1, 1, 0, none⟩ : QuantumConfig ℚ)
      step ratOps ⟨1, 1, 0, none⟩ ⟨true, 1⟩ ⟨1/20, 1/50, 5, 7⟩ ⟨2, 1, 5⟩
        (fun _ => 0) c 0) = .error "qubit index out of range" := by
  refine ⟨⟨by norm_num, by norm_num, le_refl 0⟩, by norm_num [validSignal],
    ⟨by norm_num, by norm_num, by norm_num, by norm_num⟩,
    ⟨by norm_num, ⟨by norm_num, by norm_num⟩, by norm_num⟩, ?_⟩
  with_unfolding_all rfl

/-- C9 amended: configuration errors for each bundle's own invariants are
raised eagerly at construction, but the feedback qubit indices are never
validated against `n_qubits`, so `step` can still raise a qubit-range
error for a fully validated configuration (see the counterexample);
whenever both `target_qubit` and `perturb_qubit` do lie below `n_qubits`,
applying the feedback rz gate never fails, whichever way the detection
went. -/
theorem claim_c9 {K : Type} [LinearOrderedField K] (ops : AnalyticOps K)
    (feedback : FeedbackConfig K) (n_qubits : ℕ) (detected_pattern : Bool)
    (state : List (Cplx K)) (ht : feedback.target_qubit.toNat < n_qubits)
    (hp : feedback.perturb_qubit.toNat < n_qubits) :
    ∃ r, apply_feedback ops feedback n_qubits detected_pattern state = .ok r := by
  have htn : (if detected_pattern then feedback.target_qubit
      else feedback.perturb_qubit).toNat < n_qubits := by
    cases detected_pattern
    · exact hp
    · exact ht
  show ∃ r, apply_single_qubit_gate state
    (rz ops (if detected_pattern then feedback.pattern_rotation
      else feedback.noise_rotation))
    (if detected_pattern then feedback.target_qubit
      else feedback.perturb_qubit).toNat n_qubits = .ok r
  refine ⟨(rangeStep state.length
      ((1 <<< (if detected_pattern then feedback.target_qubit
        else feedback.perturb_qubit).toNat) <<< 1)).foldl
    (gateOuter state
      (rz ops (if detected_pattern then feedback.pattern_rotation
        else feedback.noise_rotation))
      (1 <<< (if detected_pattern then feedback.target_qubit
        else feedback.perturb_qubit).toNat)) state, ?_⟩
  rw [apply_single_qubit_gate, if_neg (not_le.mpr htn)]

/-- Witness for the amended C9: both feedback qubits in range, on a
concrete 2-qubit rational state. -/
theorem claim_c9_witness :
    ((⟨1, 1, 0, 1⟩ : FeedbackConfig ℚ) : FeedbackConfig ℚ).target_qubit.toNat < 2 ∧
    ((⟨1, 1, 0, 1⟩ : FeedbackConfig ℚ) : FeedbackConfig ℚ).perturb_qubit.toNat < 2 ∧
    (∃ r, apply_feedback ratOps (⟨1, 1, 0, 1⟩ : FeedbackConfig ℚ) 2 true
      [((1 : ℚ), (0 : ℚ)), (0, 0), (0, 0), (0, 0)] = .ok r) :=
  ⟨by decide, by decide,
    claim_c9 ratOps ⟨1, 1, 0, 1⟩ 2 true _ (by decide) (by decide)⟩

/-! ## Helper lemmas: sampling (measurement.py) -/

section SampleProof

variable {K : Type} [LinearOrderedField K]

/-- The while loop of `sample_counts` on a power-of-two length computes
exactly the exponent. -/
lemma lenLog_two_pow (k : ℕ) : lenLog (2 ^ k) = k := by
  have hfold : ∀ m, (List.range m).foldl
      (fun n_qubits _ => if 1 <<< n_qubits < 2 ^ k then n_qubits + 1 else n_qubits) 0 =
      min m k := by
    intro m
    induction m with
    | zero => simp
    | succ m ih =>
      rw [List.range_succ, List.foldl_append, List.foldl_cons, List.foldl_nil, ih]
      have hiff : (1 <<< min m k < 2 ^ k) ↔ min m k < k := by
        rw [one_shiftLeft_eq]
        exact Nat.pow_lt_pow_iff_right (by norm_num)
      by_cases h : m < k
      · rw [if_pos (hiff.mpr (by omega))]
        omega
      · rw [if_neg (by rw [hiff]; omega)]
        omega
  rw [lenLog, hfold]
  have := Nat.lt_two_pow k
  omega

lemma cumsum_length : ∀ (l : List K) (c : K), (cumsum c l).length = l.length := by
  intro l
  induction l with
  | nil => intro c; rfl
  | cons v rest ih => intro c; rw [cumsum, List.length_cons, List.length_cons, ih]

/-- The last entry of the cumulative array is the full running total. -/
lemma cumsum_last_mem : ∀ (l : List K), l ≠ [] → ∀ c : K, c + l.sum ∈ cumsum c l := by
  intro l
  induction l with
  | nil => intro h; exact absurd rfl h
  | cons v rest ih =>
    intro _ c
    rw [cumsum]
    by_cases hr : rest = []
    · subst hr
      simp [cumsum]
    · rw [List.sum_cons, ← add_assoc]
      exact List.mem_cons_of_mem _ (ih hr (c + v))

lemma findFirst_some {α : Type} (p : α → Bool) :
    ∀ l : List α, ∀ x ∈ l, p x = true →
      ∃ i, findFirst p l = some i ∧ i < l.length := by
  intro l
  induction l with
  | nil => intro x hx; simp at hx
  | cons a l ih =>
    intro x hx hp
    by_cases hpa : p a = true
    · exact ⟨0, by rw [findFirst, if_pos hpa], by simp⟩
    · rcases List.mem_cons.mp hx with rfl | hxl
      · exact absurd hp hpa
      · obtain ⟨i, hf, hlt⟩ := ih x hxl hp
        refine ⟨i + 1, ?_, by simp; omega⟩
        rw [findFirst, if_neg hpa, hf]
        rfl

lemma incr_keys (counts : List (String × ℕ)) (key : String) :
    (incr counts key).map Prod.fst = counts.map Prod.fst := by
  rw [incr, List.map_map]
  apply List.map_congr_left
  intro kv _
  by_cases h : kv.1 = key <;> simp [h]

lemma incr_of_not_mem : ∀ (counts : List (String × ℕ)) (key : String),
    key ∉ counts.map Prod.fst → incr counts key = counts := by
  intro counts
  induction counts with
  | nil => intro key _; rfl
  | cons kv rest ih =>
    intro key hkey
    simp only [List.map_cons, List.mem_cons, not_or] at hkey
    rw [incr, List.map_cons, if_neg (fun h => hkey.1 h.symm)]
    have := ih key hkey.2
    rw [incr] at this
    rw [this]

lemma incr_sum : ∀ (counts : List (String × ℕ)) (key : String),
    key ∈ counts.map Prod.fst → (counts.map Prod.fst).Nodup →
    ((incr counts key).map Prod.snd).sum = (counts.map Prod.snd).sum + 1 := by
  intro counts
  induction counts with
  | nil => intro key h; simp at h
  | cons kv rest ih =>
    intro key hmem hnd
    simp only [List.map_cons, List.nodup_cons] at hnd
    rw [incr, List.map_cons]
    by_cases h : kv.1 = key
    · rw [if_pos h]
      have hrest : incr rest key = rest := incr_of_not_mem rest key (h ▸ hnd.1)
      rw [incr] at hrest
      simp only [List.map_cons, List.sum_cons, hrest]
      omega
    · rw [if_neg h]
      rcases List.mem_cons.mp hmem with rfl | hmem2
      · exact absurd rfl h
      · have := ih key hmem2 hnd.2
        rw [incr] at this
        simp only [List.map_cons, List.sum_cons, this]
        omega

lemma binKey_length (index n : ℕ) : (binKey index n).length = max n 1 := by
  simp [binKey, String.length]

lemma binKey_inj {n i j : ℕ} (hi : i < 2 ^ n) (hj : j < 2 ^ n)
    (h : binKey i n = binKey j n) : i = j := by
  rw [binKey, binKey] at h
  have hd := congrArg String.data h
  apply Nat.eq_of_testBit_eq
  intro k
  by_cases hk : k < n
  · have hpt := List.map_inj_left.mp hd k
      (List.mem_reverse.mpr (List.mem_range.mpr (by omega)))
    by_cases hbi : (i >>> k) &&& 1 = 1 <;> by_cases hbj : (j >>> k) &&& 1 = 1
    · rw [(and_one_eq_one_iff i k).mp hbi, (and_one_eq_one_iff j k).mp hbj]
    · rw [if_pos hbi, if_neg hbj] at hpt
      exact absurd hpt (by decide)
    · rw [if_neg hbi, if_pos hbj] at hpt
      exact absurd hpt (by decide)
    · have h0i : (i >>> k) &&& 1 = 0 := by
        have := Nat.and_one_is_mod (i >>> k)
        omega
      have h0j : (j >>> k) &&& 1 = 0 := by
        have := Nat.and_one_is_mod (j >>> k)
        omega
      rw [(and_one_eq_zero_iff i k).mp h0i, (and_one_eq_zero_iff j k).mp h0j]
  · have hik : i < 2 ^ k := lt_of_lt_of_le hi (Nat.pow_le_pow_right (by norm_num) (by omega))
    have hjk : j < 2 ^ k := lt_of_lt_of_le hj (Nat.pow_le_pow_right (by norm_num) (by omega))
    rw [Nat.testBit_lt_two_pow hik, Nat.testBit_lt_two_pow hjk]

lemma binKey_nodup (n : ℕ) : ((List.range (2 ^ n)).map (fun i => binKey i n)).Nodup :=
  List.Nodup.map_on
    (fun x hx y hy h =>
      binKey_inj (List.mem_range.mp hx) (List.mem_range.mp hy) h)
    (List.nodup_range _)

lemma shotStep_keys (rng : ℕ → K) (pos : ℕ) (cumulative : List K) (n_qubits : ℕ)
    (counts : List (String × ℕ)) (shot : ℕ) :
    (shotStep rng pos cumulative n_qubits counts shot).map Prod.fst =
      counts.map Prod.fst := by
  rw [shotStep]
  rcases hf : findFirst (fun threshold => decide (rng (pos + shot) ≤ threshold)) cumulative
    with _ | index
  · rfl
  · exact incr_keys counts (binKey index n_qubits)

lemma shotFold_keys (rng : ℕ → K) (pos : ℕ) (cumulative : List K) (n_qubits : ℕ) :
    ∀ (l : List ℕ) (counts : List (String × ℕ)),
      ((l.foldl (shotStep rng pos cumulative n_qubits) counts).map Prod.fst) =
        counts.map Prod.fst := by
  intro l
  induction l with
  | nil => intro counts; rfl
  | cons shot l ih =>
    intro counts
    rw [List.foldl_cons, ih, shotStep_keys]

lemma sum_map_div (t : K) : ∀ l : List K, ((l.map (fun v => v / t)).sum) = l.sum / t := by
  intro l
  induction l with
  | nil => simp
  | cons v rest ih =>
    rw [List.map_cons, List.sum_cons, List.sum_cons, ih, add_div]

lemma shotFold_sum {n : ℕ} (rng : ℕ → K) (pos : ℕ) (cumulative : List K)
    (hclen : cumulative.length = 2 ^ n)
    (hfind : ∀ shot : ℕ, ∃ i,
      findFirst (fun threshold => decide (rng (pos + shot) ≤ threshold)) cumulative =
        some i ∧ i < cumulative.length) :
    ∀ (l : List ℕ) (counts : List (String × ℕ)),
      counts.map Prod.fst = (List.range (2 ^ n)).map (fun i => binKey i n) →
      ((l.foldl (shotStep rng pos cumulative n) counts).map Prod.snd).sum =
        (counts.map Prod.snd).sum + l.length := by
  intro l
  induction l with
  | nil => intro counts _; rw [List.foldl_nil, List.length_nil, Nat.add_zero]
  | cons shot l ih =>
    intro counts hkeys
    rw [List.foldl_cons]
    have hkeys2 : (shotStep rng pos cumulative n counts shot).map Prod.fst =
        (List.range (2 ^ n)).map (fun i => binKey i n) := by
      rw [shotStep_keys, hkeys]
    rw [ih _ hkeys2]
    obtain ⟨i, hf, hi⟩ := hfind shot
    have hstep : shotStep rng pos cumulative n counts shot =
        incr counts (binKey i n) := by
      rw [shotStep, hf]
    have hmem : binKey i n ∈ counts.map Prod.fst := by
      rw [hkeys]
      exact List.mem_map_of_mem _ (List.mem_range.mpr (by omega))
    have hnd : (counts.map Prod.fst).Nodup := by
      rw [hkeys]
      exact binKey_nodup n
    rw [hstep, incr_sum counts (binKey i n) hmem hnd, List.length_cons]
    omega

/-- Full characterization of a successful `sample_counts` call on a
`2^n`-length state with nonzero probability mass: the call succeeds, the
returned dict carries exactly the `2^n` distinct width-`n` binary keys in
index order, and — whenever every draw of the random source is below 1,
as Python's `random()` guarantees — the counts sum to the shot count. -/
lemma sample_counts_spec (ops : AnalyticOps K) {n : ℕ} (state : List (Cplx K))
    (shots : ℤ) (rng : ℕ → K) (pos : ℕ)
    (hlen : state.length = 2 ^ n) (hshots : 0 < shots)
    (hmass : (state.map (fun amplitude => cabs ops amplitude ^ 2)).sum ≠ 0) :
    ∃ counts, sample_counts ops state shots rng pos = .ok (counts, pos + shots.toNat) ∧
      counts.map Prod.fst = (List.range (2 ^ n)).map (fun i => binKey i n) ∧
      (counts.map Prod.fst).Nodup ∧
      ((∀ j : ℕ, rng j < 1) → (counts.map Prod.snd).sum = shots.toNat) := by
  have hprob : probabilities ops state =
      .ok ((state.map (fun amplitude => cabs ops amplitude ^ 2)).map
        (fun value => value /
          (state.map (fun amplitude => cabs ops amplitude ^ 2)).sum)) := by
    rw [probabilities, if_neg hmass]
  refine ⟨(List.range shots.toNat).foldl
    (shotStep rng pos
      (cumsum 0 ((state.map (fun amplitude => cabs ops amplitude ^ 2)).map
        (fun value => value /
          (state.map (fun amplitude => cabs ops amplitude ^ 2)).sum))) n)
    ((List.range (2 ^ n)).map (fun index => (binKey index n, 0))), ?_, ?_, ?_, ?_⟩
  · simp only [sample_counts]
    rw [if_neg (not_le.mpr hshots), hlen, lenLog_two_pow, if_neg (by simp), hprob]
    rfl
  · rw [shotFold_keys, List.map_map]
    rfl
  · rw [shotFold_keys, List.map_map]
    exact binKey_nodup n
  · intro hrng
    have hplen : ((state.map (fun amplitude => cabs ops amplitude ^ 2)).map
        (fun value => value /
          (state.map (fun amplitude => cabs ops amplitude ^ 2)).sum)).length = 2 ^ n := by
      rw [List.length_map, List.length_map, hlen]
    have hsum1 : ((state.map (fun amplitude => cabs ops amplitude ^ 2)).map
        (fun value => value /
          (state.map (fun amplitude => cabs ops amplitude ^ 2)).sum)).sum = 1 := by
      rw [sum_map_div]
      exact div_self hmass
    have hfind : ∀ shot : ℕ, ∃ i,
        findFirst (fun threshold => decide (rng (pos + shot) ≤ threshold))
          (cumsum 0 ((state.map (fun amplitude => cabs ops amplitude ^ 2)).map
            (fun value => value /
              (state.map (fun amplitude => cabs ops amplitude ^ 2)).sum))) =
          some i ∧ i < (cumsum 0 ((state.map (fun amplitude => cabs ops amplitude ^ 2)).map
            (fun value => value /
              (state.map (fun amplitude => cabs ops amplitude ^ 2)).sum))).length := by
      intro shot
      apply findFirst_some _ _ _
        (cumsum_last_mem _ (by
          intro hnil
          rw [hnil, List.length_nil] at hplen
          have hp2 : (0 : ℕ) < 2 ^ n := by positivity
          omega) 0)
      rw [hsum1]
      exact decide_eq_true (by linarith [hrng (pos + shot)])
    have := shotFold_sum rng pos _ (by rw [cumsum_length, hplen]) hfind
      (List.range shots.toNat)
      ((List.range (2 ^ n)).map (fun index => (binKey index n, 0)))
      (by rw [List.map_map]; rfl)
    rw [this]
    have hzero : (((List.range (2 ^ n)).map
        (fun index => (binKey index n, 0))).map Prod.snd).sum = 0 := by
      apply List.sum_eq_zero
      intro x hx
      obtain ⟨y, hy, rfl⟩ := List.mem_map.mp hx
      obtain ⟨i, -, rfl⟩ := List.mem_map.mp hy
      rfl
    rw [hzero, List.length_range, Nat.zero_add]

end SampleProof

/-- Counterexample to C4 as stated: the single-amplitude state `[1]` has
length `2^0` and unit mass, so it sits inside the claim's quantifier with
`n = 0`; the program succeeds and returns the single outcome key `"0"`
(Python's `format(0, "00b")` always emits at least one digit), a
one-character string — not an `n`-character (empty) key, falsifying the
fixed-width-`n` conjunct.  The remaining conjuncts (every outcome key
present, values summing to the shot count) do hold here. -/
theorem claim_c4_counterexample :
    ([((1 : ℚ), (0 : ℚ))] : List (Cplx ℚ)).length = 2 ^ 0 ∧
    (0 : ℤ) < 1 ∧
    (([((1 : ℚ), (0 : ℚ))] : List (Cplx ℚ)).map
      (fun amplitude => cabs ratOps amplitude ^ 2)).sum ≠ 0 ∧
    (∀ j : ℕ, (fun _ : ℕ => (0 : ℚ)) j < 1) ∧
    sample_counts ratOps ([((1 : ℚ), (0 : ℚ))]) 1 (fun _ => 0) 0 =
      .ok ([("0", 1)], 1) ∧
    ¬ (∀ key ∈ ([("0", 1)] : List (String × ℕ)).map Prod.fst, key.length = 0) := by
  refine ⟨rfl, by decide, by norm_num [cabs, cnormSq, ratOps],
    fun j => by norm_num, ?_, by decide⟩
  with_unfolding_all rfl

/-- C4 amended: on any state of power-of-two length `2^n` with nonzero
probability mass and any positive shot count, `sample_counts` succeeds and
returns a mapping whose keys are exactly the `2^n` distinct fixed-width
binary strings of width `max n 1` (`n` characters for every `n ≥ 1`; the
degenerate `n = 0` state gets the one-character key `"0"`), zero-count
outcomes included, whose values are natural numbers (hence non-negative),
and — for every random source whose draws lie below 1, as Python's
`random()` guarantees — whose values sum exactly to the shot count. -/
theorem claim_c4 {K : Type} [LinearOrderedField K] (ops : AnalyticOps K) {n : ℕ}
    (state : List (Cplx K)) (shots : ℤ) (rng : ℕ → K) (pos : ℕ)
    (hlen : state.length = 2 ^ n) (hshots : 0 < shots)
    (hmass : (state.map (fun amplitude => cabs ops amplitude ^ 2)).sum ≠ 0)
    (hrng : ∀ j : ℕ, rng j < 1) :
    ∃ counts pos2, sample_counts ops state shots rng pos = .ok (counts, pos2) ∧
      counts.map Prod.fst = (List.range (2 ^ n)).map (fun i => binKey i n) ∧
      (counts.map Prod.fst).Nodup ∧
      (∀ key ∈ counts.map Prod.fst, key.length = max n 1) ∧
      (counts.map Prod.snd).sum = shots.toNat := by
  obtain ⟨counts, hok, hkeys, hnd, hsum⟩ :=
    sample_counts_spec ops state shots rng pos hlen hshots hmass
  refine ⟨counts, pos + shots.toNat, hok, hkeys, hnd, ?_, hsum hrng⟩
  intro key hkey
  rw [hkeys] at hkey
  obtain ⟨i, -, rfl⟩ := List.mem_map.mp hkey
  exact binKey_length i n

/-- Witness for C4: one shot on a concrete one-qubit rational state. -/
theorem claim_c4_witness :
    ([((1 : ℚ), (0 : ℚ)), (0, 0)] : List (Cplx ℚ)).length = 2 ^ 1 ∧
    (0 : ℤ) < 1 ∧
    (([((1 : ℚ), (0 : ℚ)), (0, 0)] : List (Cplx ℚ)).map
      (fun amplitude => cabs ratOps amplitude ^ 2)).sum ≠ 0 ∧
    (∀ j : ℕ, (fun _ : ℕ => (0 : ℚ)) j < 1) ∧
    (∃ counts pos2,
      sample_counts ratOps ([((1 : ℚ), (0 : ℚ)), (0, 0)]) 1 (fun _ => 0) 0 =
        .ok (counts, pos2) ∧
      counts.map Prod.fst = (List.range (2 ^ 1)).map (fun i => binKey i 1) ∧
      (counts.map Prod.fst).Nodup ∧
      (∀ key ∈ counts.map Prod.fst, key.length = max 1 1) ∧
      (counts.map Prod.snd).sum = (1 : ℤ).toNat) :=
  ⟨by decide, by decide, by norm_num [cabs, cnormSq, ratOps],
    fun j => by norm_num,
    claim_c4 ratOps ([((1 : ℚ), (0 : ℚ)), (0, 0)]) 1 (fun _ => 0) 0 (by decide)
      (by decide) (by norm_num [cabs, cnormSq, ratOps]) (fun j => by norm_num)⟩

/-! ## Helper lemmas: the real-valued pipeline (core.py at `ℝ`) -/

section RealLemmas

lemma bind_ok_eq {α β : Type} (a : α) (f : α → Except String β) :
    ((Except.ok a : Except String α) >>= f) = f a := rfl

lemma bind_err_eq {α β : Type} (e : String) (f : α → Except String β) :
    ((Except.error e : Except String α) >>= f) = Except.error e := rfl

lemma cnormSq_nonneg {K : Type} [LinearOrderedField K] (x : Cplx K) :
    0 ≤ cnormSq x := by
  rw [cnormSq]
  exact add_nonneg (mul_self_nonneg _) (mul_self_nonneg _)

lemma l2normSq_nonneg {K : Type} [LinearOrderedField K] (s : List (Cplx K)) :
    0 ≤ l2normSq s := by
  rw [l2normSq]
  apply List.sum_nonneg
  intro x hx
  obtain ⟨a, -, rfl⟩ := List.mem_map.mp hx
  exact cnormSq_nonneg a

/-- Over the reals the squared norm the source accumulates through
`abs(amplitude) ** 2` is exactly the sum of squared moduli. -/
lemma computed_norm_sq (s : List (Cplx ℝ)) :
    (s.map (fun amplitude => cabs realOps amplitude ^ 2)).sum = l2normSq s := by
  rw [l2normSq]
  congr 1
  apply List.map_congr_left
  intro a _
  rw [cabs]
  show Real.sqrt (cnormSq a) ^ 2 = cnormSq a
  exact Real.sq_sqrt (cnormSq_nonneg a)

lemma cdivr_normSq {K : Type} [LinearOrderedField K] (x : Cplx K) (t : K) :
    cnormSq (cdivr x t) = cnormSq x / (t * t) := by
  simp only [cnormSq, cdivr]
  rw [div_mul_div_comm, div_mul_div_comm, div_add_div_same]

lemma l2normSq_map_cdivr {K : Type} [LinearOrderedField K] (s : List (Cplx K)) (t : K) :
    l2normSq (s.map (fun amplitude => cdivr amplitude t)) = l2normSq s / (t * t) := by
  rw [l2normSq, l2normSq, List.map_map, ← sum_map_div]
  congr 1
  rw [List.map_map]
  apply List.map_congr_left
  intro a _
  exact cdivr_normSq a t

/-- A successful `normalize` over the reals leaves squared L2 norm exactly
1 and the length unchanged. -/
lemma normalize_ok (s r : List (Cplx ℝ)) (h : normalize realOps s = .ok r) :
    l2normSq r = 1 ∧ r.length = s.length := by
  simp only [normalize] at h
  by_cases hz : (s.map (fun amplitude => cabs realOps amplitude ^ 2)).sum = 0
  · rw [if_pos hz] at h
    cases h
  · rw [if_neg hz] at h
    have hr : r = s.map (fun amplitude =>
        cdivr amplitude (realOps.sqrt
          ((s.map (fun amplitude => cabs realOps amplitude ^ 2)).sum))) := by
      cases h
      rfl
    rw [computed_norm_sq] at hz
    constructor
    · rw [hr, computed_norm_sq, l2normSq_map_cdivr]
      show l2normSq s / (Real.sqrt (l2normSq s) * Real.sqrt (l2normSq s)) = 1
      rw [Real.mul_self_sqrt (l2normSq_nonneg s)]
      exact div_self hz
    · rw [hr, List.length_map]

/-- A `normalize` over the reals succeeds exactly on nonzero squared norm. -/
lemma normalize_spec (s : List (Cplx ℝ)) (h : l2normSq s ≠ 0) :
    ∃ r, normalize realOps s = .ok r ∧ l2normSq r = 1 ∧ r.length = s.length := by
  have hok : normalize realOps s = .ok (s.map (fun amplitude =>
      cdivr amplitude (realOps.sqrt
        ((s.map (fun amplitude => cabs realOps amplitude ^ 2)).sum)))) := by
    rw [normalize, if_neg (by rw [computed_norm_sq]; exact h)]
  obtain ⟨h1, h2⟩ := normalize_ok s _ hok
  exact ⟨_, hok, h1, h2⟩

lemma cxStep_length {K : Type} [LinearOrderedField K] (c t : ℕ)
    (B : List (Cplx K)) (i : ℕ) : (cxStep c t B i).length = B.length := by
  rw [cxStep]
  split
  · simp
  · rfl

lemma apply_controlled_x_ok_length {K : Type} [LinearOrderedField K]
    {s r : List (Cplx K)} {c t n : ℕ} (h : apply_controlled_x s c t n = .ok r) :
    r.length = s.length := by
  rw [apply_controlled_x] at h
  split at h
  · cases h
  · split at h
    · cases h
    · cases h
      exact foldl_length_invariant _ (cxStep_length c t) _ s

lemma gateOuter_length {K : Type} [LinearOrderedField K] (s : List (Cplx K))
    (g : Mat2 K) (stride : ℕ) (B : List (Cplx K)) (start : ℕ) :
    (gateOuter s g stride B start).length = B.length := by
  rw [gateOuter]
  exact foldl_length_invariant _ (gateInner_length s g stride start) _ B

lemma apply_single_qubit_gate_ok_length {K : Type} [LinearOrderedField K]
    {s r : List (Cplx K)} {g : Mat2 K} {q n : ℕ}
    (h : apply_single_qubit_gate s g q n = .ok r) : r.length = s.length := by
  rw [apply_single_qubit_gate] at h
  split at h
  · cases h
  · cases h
    exact foldl_length_invariant _ (fun B a => gateOuter_length s g _ B a) _ s

lemma entangle_chain_ok_length {K : Type} [LinearOrderedField K] {n : ℕ} :
    ∀ (l : List ℕ) (s r : List (Cplx K)),
      l.foldlM (fun s qubit => apply_controlled_x s qubit (qubit + 1) n) s = .ok r →
      r.length = s.length := by
  intro l
  induction l with
  | nil =>
    intro s r h
    cases h
    rfl
  | cons q l ih =>
    intro s r h
    rw [List.foldlM_cons] at h
    rcases hq : apply_controlled_x s q (q + 1) n with e | s1
    · rw [hq, bind_err_eq] at h
      cases h
    · rw [hq, bind_ok_eq] at h
      rw [ih s1 r h, apply_controlled_x_ok_length hq]

lemma apply_feedback_ok_length {K : Type} [LinearOrderedField K]
    {ops : AnalyticOps K} {feedback : FeedbackConfig K} {n : ℕ} {d : Bool}
    {s r : List (Cplx K)} (h : apply_feedback ops feedback n d s = .ok r) :
    r.length = s.length := by
  rw [apply_feedback] at h
  exact apply_single_qubit_gate_ok_length h

end RealLemmas

/-- C2: a `step` that returns normally leaves the orchestrator's state
vector with squared L2 norm exactly 1 (the closing `normalize` enforces
it) and with its length — `2^n_qubits` throughout the core's life —
unchanged; a `step` that raises promises nothing. -/
theorem claim_c2 (quantum : QuantumConfig ℝ) (signalCfg : SignalConfig ℝ)
    (feedback : FeedbackConfig ℝ) (decoderCfg : DecoderConfig ℝ) (rng : ℕ → ℝ)
    (core : CoreState ℝ) (step_index : ℤ) :
    match step realOps quantum signalCfg feedback decoderCfg rng core step_index with
    | .ok (core2, _) =>
        l2normSq core2.state = 1 ∧ core2.state.length = core.state.length
    | .error _ => True := by
  rcases hstep : step realOps quantum signalCfg feedback decoderCfg rng core step_index
    with e | ⟨core2, res⟩
  · trivial
  · simp only [step] at hstep
    rcases h1 : entangle_chain core.state quantum.n_qubits.toNat with e | s1 <;>
      rw [h1] at hstep
    · rw [bind_err_eq] at hstep
      cases hstep
    rw [bind_ok_eq] at hstep
    try dsimp only [] at hstep
    rcases h2 : apply_single_qubit_gate s1
        (rz realOps (quantum.coupling_strength * ALPHA)) 0 quantum.n_qubits.toNat
      with e | s2 <;> rw [h2] at hstep
    · rw [bind_err_eq] at hstep
      cases hstep
    rw [bind_ok_eq] at hstep
    try dsimp only [] at hstep
    rcases h3 : sample_counts realOps s2 quantum.shots rng core.rngPos
      with e | ⟨counts, pos⟩ <;> rw [h3] at hstep
    · rw [bind_err_eq] at hstep
      cases hstep
    rw [bind_ok_eq] at hstep
    try dsimp only [] at hstep
    rcases h4 : counts_to_signal (K := ℝ) counts with e | signal <;> rw [h4] at hstep
    · rw [bind_err_eq] at hstep
      cases hstep
    rw [bind_ok_eq] at hstep
    try dsimp only [] at hstep
    rcases h5 : update decoderCfg core.dec
        (fourier_spectrum realOps signal signalCfg) with e | ⟨dec2, specRes⟩ <;>
      rw [h5] at hstep
    · rw [bind_err_eq] at hstep
      cases hstep
    rw [bind_ok_eq] at hstep
    try dsimp only [] at hstep
    rcases h6 : apply_feedback realOps feedback quantum.n_qubits.toNat
        (detect decoderCfg dec2) s2 with e | s3 <;> rw [h6] at hstep
    · rw [bind_err_eq] at hstep
      cases hstep
    rw [bind_ok_eq] at hstep
    try dsimp only [] at hstep
    rcases h7 : normalize realOps s3 with e | s4 <;> rw [h7] at hstep
    · rw [bind_err_eq] at hstep
      cases hstep
    rw [bind_ok_eq] at hstep
    simp only [Except.ok.injEq, Prod.mk.injEq] at hstep
    obtain ⟨hcore2, -⟩ := hstep
    obtain ⟨hnorm, hlen4⟩ := normalize_ok s3 s4 h7
    rw [← hcore2]
    refine ⟨hnorm, ?_⟩
    show s4.length = core.state.length
    rw [hlen4, apply_feedback_ok_length h6, apply_single_qubit_gate_ok_length h2,
      entangle_chain_ok_length _ core.state s1 h1]

/-! ## Helper lemmas: norm preservation and stage success (for C1) -/

section RunProof

lemma l2normSq_eq_sum_range {K : Type} [LinearOrderedField K] :
    ∀ l : List (Cplx K),
      l2normSq l = ∑ i ∈ Finset.range l.length, cnormSq (l.getD i czero) := by
  intro l
  induction l with
  | nil => simp [l2normSq]
  | cons a l ih =>
    rw [l2normSq, List.map_cons, List.sum_cons,
      show (l.map cnormSq).sum = l2normSq l from rfl, ih,
      List.length_cons, Finset.sum_range_succ']
    simp only [List.getD_cons_succ, List.getD_cons_zero]
    exact add_comm _ _

/-- The controlled-X pass preserves the squared norm: it permutes the
amplitudes by an involution of the index range. -/
lemma cx_ok_normSq {K : Type} [LinearOrderedField K] {c t n : ℕ}
    (hct : c ≠ t) (hc : c < n) (ht : t < n) {s r : List (Cplx K)}
    (hlen : s.length = 2 ^ n) (hok : apply_controlled_x s c t n = .ok r) :
    l2normSq r = l2normSq s := by
  obtain ⟨r', hok', hrlen, hget⟩ := apply_controlled_x_spec hct hc ht s hlen
  rw [hok] at hok'
  injection hok' with hrr
  subst hrr
  rw [l2normSq_eq_sum_range, l2normSq_eq_sum_range, hrlen, hlen]
  refine Finset.sum_nbij' (fun i => if i.testBit c then i ^^^ 2 ^ t else i)
    (fun i => if i.testBit c then i ^^^ 2 ^ t else i) ?_ ?_ ?_ ?_ ?_
  · intro a ha
    dsimp only
    rw [Finset.mem_range] at ha ⊢
    split
    · exact flip_lt ha ht
    · exact ha
  · intro a ha
    dsimp only
    rw [Finset.mem_range] at ha ⊢
    split
    · exact flip_lt ha ht
    · exact ha
  · intro a _
    dsimp only
    by_cases hb : a.testBit c
    · rw [if_pos hb, if_pos (by rw [testBit_flip_ne _ _ _ hct]; exact hb), flip_flip]
    · rw [if_neg hb, if_neg hb]
  · intro a _
    dsimp only
    by_cases hb : a.testBit c
    · rw [if_pos hb, if_pos (by rw [testBit_flip_ne _ _ _ hct]; exact hb), flip_flip]
    · rw [if_neg hb, if_neg hb]
  · intro a ha
    dsimp only
    rw [List.getD_eq_getElem?_getD, hget a]
    by_cases hb : a.testBit c
    · rw [if_pos hb, if_pos hb, List.getD_eq_getElem?_getD]
    · rw [if_neg hb, if_neg hb, List.getD_eq_getElem?_getD]

lemma cnormSq_unit_left {K : Type} [LinearOrderedField K] (g x y : Cplx K)
    (hg : cnormSq g = 1) :
    cnormSq (cadd (cmul g x) (cmul czero y)) = cnormSq x := by
  simp only [cadd, cmul, cnormSq, czero] at hg ⊢
  linear_combination (x.1 * x.1 + x.2 * x.2) * hg

lemma cnormSq_unit_right {K : Type} [LinearOrderedField K] (g x y : Cplx K)
    (hg : cnormSq g = 1) :
    cnormSq (cadd (cmul czero y) (cmul g x)) = cnormSq x := by
  simp only [cadd, cmul, cnormSq, czero] at hg ⊢
  linear_combination (x.1 * x.1 + x.2 * x.2) * hg

lemma cnormSq_cexpi_real (a : ℝ) : cnormSq (cexpi realOps a) = 1 := by
  show Real.cos a * Real.cos a + Real.sin a * Real.sin a = 1
  have h := Real.sin_sq_add_cos_sq a
  nlinarith [h]

/-- The rz gate is diagonal with unit-modulus entries, so the gate pass
leaves every summand of the squared norm unchanged. -/
lemma diag_gateVal_normSq (theta : ℝ) (s : List (Cplx ℝ)) (stride p : ℕ) :
    cnormSq (gateVal s (rz realOps theta) stride p) = cnormSq (s.getD p czero) := by
  rw [gateVal]
  split
  · exact cnormSq_unit_left _ _ _ (cnormSq_cexpi_real _)
  · exact cnormSq_unit_right _ _ _ (cnormSq_cexpi_real _)

/-- Applying an rz gate to an in-range qubit of a `2^n` state succeeds,
preserves the length, and preserves the squared norm. -/
lemma gate_rz_spec {n q : ℕ} (hq : q < n) (s : List (Cplx ℝ)) (theta : ℝ)
    (hlen : s.length = 2 ^ n) :
    ∃ r, apply_single_qubit_gate s (rz realOps theta) q n = .ok r ∧
      r.length = 2 ^ n ∧ l2normSq r = l2normSq s := by
  obtain ⟨r, hok, hrlen, hget⟩ := apply_single_qubit_gate_spec hq s (rz realOps theta) hlen
  refine ⟨r, hok, hrlen, ?_⟩
  rw [l2normSq_eq_sum_range, l2normSq_eq_sum_range, hrlen, hlen]
  apply Finset.sum_congr rfl
  intro p hp
  have hplt := Finset.mem_range.mp hp
  have hr : r.getD p czero = gateVal s (rz realOps theta) (2 ^ q) p := by
    rw [List.getD_eq_getElem?_getD, hget p, if_pos hplt]
    rfl
  rw [hr, diag_gateVal_normSq]

lemma entangle_fold_spec {n : ℕ} :
    ∀ l : List ℕ, (∀ q ∈ l, q + 1 < n) → ∀ s : List (Cplx ℝ), s.length = 2 ^ n →
      ∃ r, l.foldlM (fun s qubit => apply_controlled_x s qubit (qubit + 1) n) s = .ok r ∧
        r.length = 2 ^ n ∧ l2normSq r = l2normSq s := by
  intro l
  induction l with
  | nil =>
    intro _ s hlen
    exact ⟨s, rfl, hlen, rfl⟩
  | cons q l ih =>
    intro hmem s hlen
    have hq1 : q + 1 < n := hmem q (List.mem_cons_self q l)
    obtain ⟨s1, hok, hs1len, -⟩ :=
      apply_controlled_x_spec (c := q) (t := q + 1) (n := n)
        (by omega) (by omega) hq1 s hlen
    have hs1norm : l2normSq s1 = l2normSq s :=
      cx_ok_normSq (by omega) (by omega) hq1 hlen hok
    have hs1len2 : s1.length = 2 ^ n := by rw [hs1len, hlen]
    obtain ⟨r, hfold, hrlen, hrnorm⟩ :=
      ih (fun q hql => hmem q (List.mem_cons_of_mem _ hql)) s1 hs1len2
    refine ⟨r, ?_, hrlen, by rw [hrnorm, hs1norm]⟩
    rw [List.foldlM_cons, hok, bind_ok_eq, hfold]

lemma entangle_chain_spec (n : ℕ) (s : List (Cplx ℝ)) (hlen : s.length = 2 ^ n) :
    ∃ r, entangle_chain s n = .ok r ∧ r.length = 2 ^ n ∧ l2normSq r = l2normSq s := by
  rw [entangle_chain]
  exact entangle_fold_spec (List.range (n - 1))
    (fun q hq => by have := List.mem_range.mp hq; omega) s hlen

lemma fourier_spectrum_ne_nil {K : Type} [LinearOrderedField K]
    (ops : AnalyticOps K) (signal : List K) (config : SignalConfig K) :
    fourier_spectrum ops signal config ≠ [] := by
  have hfft : (real_fft ops signal).length = signal.length / 2 + 1 := by
    rw [real_fft]
    simp
  rw [fourier_spectrum]
  split
  · apply List.ne_nil_of_length_pos
    rw [List.length_map, List.length_map, hfft]
    omega
  · apply List.ne_nil_of_length_pos
    rw [List.length_map, hfft]
    omega

lemma counts_to_signal_ok {K : Type} [LinearOrderedField K]
    (counts : List (String × ℕ)) (h : counts ≠ []) :
    counts_to_signal (K := K) counts =
      .ok ((pySorted (fun a b => decide (a ≤ b)) (counts.map Prod.fst)).map
        (fun key => ((dictGet counts key : ℕ) : K))) := by
  rw [counts_to_signal, if_neg h]

lemma update_ok {K : Type} [LinearOrderedField K] (config : DecoderConfig K)
    (st : DecoderState K) (spectrum : List K) (h : spectrum ≠ []) :
    ∃ pr, update config st spectrum = .ok pr := by
  refine ⟨(⟨dqAppend config.history.toNat st.history
      (listMax spectrum / (median spectrum + 1 / 1000000000)),
      config.smoothing * listMean (dqAppend config.history.toNat st.history
        (listMax spectrum / (median spectrum + 1 / 1000000000))) +
        (1 - config.smoothing) * st.baseline⟩,
    ⟨spectrum, listMax spectrum / (median spectrum + 1 / 1000000000)⟩), ?_⟩
  rw [update, if_neg h]

/-- Construction always succeeds over the reals: the uniform superposition
has squared norm exactly 1, so the constructor's `normalize` goes through
and the fresh core carries a unit state of length `2^n_qubits`. -/
lemma mkCore_spec (quantum : QuantumConfig ℝ) :
    ∃ core0, mkCore realOps quantum = .ok core0 ∧
      core0.state.length = 2 ^ quantum.n_qubits.toNat ∧
      l2normSq core0.state = 1 ∧ core0.dec = ⟨[], 1⟩ ∧ core0.rngPos = 0 := by
  have hpow : (0 : ℝ) < (2 : ℝ) ^ quantum.n_qubits.toNat := by positivity
  have huni : l2normSq (uniform_superposition realOps quantum.n_qubits.toNat) = 1 := by
    rw [uniform_superposition, l2normSq, List.map_replicate, List.sum_replicate,
      nsmul_eq_mul]
    have hone : cnormSq ((1 / realOps.sqrt ((2 : ℝ) ^ quantum.n_qubits.toNat), 0) :
        Cplx ℝ) = 1 / (2 : ℝ) ^ quantum.n_qubits.toNat := by
      rw [cnormSq]
      show 1 / Real.sqrt ((2 : ℝ) ^ quantum.n_qubits.toNat) *
          (1 / Real.sqrt ((2 : ℝ) ^ quantum.n_qubits.toNat)) + 0 * 0 = _
      rw [div_mul_div_comm, one_mul, Real.mul_self_sqrt (le_of_lt hpow),
        mul_zero, add_zero]
    rw [hone, Nat.cast_pow, Nat.cast_ofNat, mul_one_div, div_self (ne_of_gt hpow)]
  obtain ⟨s, hok, hnorm, hslen⟩ := normalize_spec _ (by rw [huni]; norm_num)
  refine ⟨⟨s, ⟨[], 1⟩, 0⟩, ?_, ?_, hnorm, rfl, rfl⟩
  · rw [mkCore, hok, bind_ok_eq]
  · rw [hslen, uniform_superposition, List.length_replicate]

/-- The feedback gate on in-range qubits succeeds and preserves length and
squared norm, whichever way the detection went. -/
lemma feedback_spec (feedback : FeedbackConfig ℝ) {n : ℕ} (d : Bool)
    (s : List (Cplx ℝ)) (hlen : s.length = 2 ^ n)
    (ht : feedback.target_qubit.toNat < n) (hp : feedback.perturb_qubit.toNat < n) :
    ∃ r, apply_feedback realOps feedback n d s = .ok r ∧
      r.length = 2 ^ n ∧ l2normSq r = l2normSq s := by
  have hq : (if d then feedback.target_qubit else feedback.perturb_qubit).toNat < n := by
    cases d
    · exact hp
    · exact ht
  obtain ⟨r, hok, hrlen, hrnorm⟩ := gate_rz_spec hq s
    (if d then feedback.pattern_rotation else feedback.noise_rotation) hlen
  exact ⟨r, hok, hrlen, hrnorm⟩

/-- One full `step` on a valid configuration with in-range feedback qubits
and a unit `2^n` state succeeds, reproduces the step index in its result,
and hands the next step a unit `2^n` state again. -/
lemma step_spec (quantum : QuantumConfig ℝ) (signalCfg : SignalConfig ℝ)
    (feedback : FeedbackConfig ℝ) (decoderCfg : DecoderConfig ℝ) (rng : ℕ → ℝ)
    (core : CoreState ℝ) (i : ℤ)
    (hn : 0 < quantum.n_qubits) (hsh : 0 < quantum.shots)
    (htq : feedback.target_qubit < quantum.n_qubits)
    (hpq : feedback.perturb_qubit < quantum.n_qubits)
    (hlen : core.state.length = 2 ^ quantum.n_qubits.toNat)
    (hnorm : l2normSq core.state = 1) :
    ∃ core2 res,
      step realOps quantum signalCfg feedback decoderCfg rng core i = .ok (core2, res) ∧
      core2.state.length = 2 ^ quantum.n_qubits.toNat ∧
      l2normSq core2.state = 1 ∧ res.step = i := by
  obtain ⟨s1, h1, h1len, h1norm⟩ :=
    entangle_chain_spec quantum.n_qubits.toNat core.state hlen
  obtain ⟨s2, h2, h2len, h2norm⟩ :=
    gate_rz_spec (q := 0) (by omega) s1 (quantum.coupling_strength * ALPHA) h1len
  have hmass : (s2.map (fun amplitude => cabs realOps amplitude ^ 2)).sum ≠ 0 := by
    rw [computed_norm_sq, h2norm, h1norm, hnorm]
    norm_num
  obtain ⟨counts, h3, hkeys, -, -⟩ := sample_counts_spec realOps s2 quantum.shots rng
    core.rngPos h2len hsh hmass
  have hcne : counts ≠ [] := by
    intro hnil
    rw [hnil] at hkeys
    have hlen0 := congrArg List.length hkeys
    simp only [List.length_map, List.length_nil, List.length_range] at hlen0
    have : (0 : ℕ) < 2 ^ quantum.n_qubits.toNat := by positivity
    omega
  have h4 := counts_to_signal_ok (K := ℝ) counts hcne
  have hsne := fourier_spectrum_ne_nil realOps
    ((pySorted (fun a b => decide (a ≤ b)) (counts.map Prod.fst)).map
      (fun key => ((dictGet counts key : ℕ) : ℝ))) signalCfg
  obtain ⟨⟨dec2, specRes⟩, h5⟩ := update_ok decoderCfg core.dec _ hsne
  obtain ⟨s3, h6, h6len, h6norm⟩ := feedback_spec feedback (detect decoderCfg dec2) s2
    h2len (by omega) (by omega)
  obtain ⟨s4, h7, h7norm, h7len⟩ := normalize_spec s3 (by
    rw [h6norm, h2norm, h1norm, hnorm]
    norm_num)
  refine ⟨⟨s4, dec2, core.rngPos + quantum.shots.toNat⟩,
    ⟨i, detect decoderCfg dec2, specRes.peak_ratio, specRes.spectrum⟩, ?_, ?_, h7norm, rfl⟩
  · simp only [step]
    rw [h1, bind_ok_eq]
    try dsimp only []
    rw [h2, bind_ok_eq]
    try dsimp only []
    rw [h3, bind_ok_eq]
    try dsimp only []
    rw [h4, bind_ok_eq]
    try dsimp only []
    rw [h5, bind_ok_eq]
    try dsimp only []
    rw [h6, bind_ok_eq]
    try dsimp only []
    rw [h7, bind_ok_eq]
  · show s4.length = _
    rw [h7len, h6len]

/-- The collection loop: with the step invariant holding, every index in
the list is executed in order and contributes one `StepResult` carrying
that index. -/
lemma runLoop_spec (quantum : QuantumConfig ℝ) (signalCfg : SignalConfig ℝ)
    (feedback : FeedbackConfig ℝ) (decoderCfg : DecoderConfig ℝ) (rng : ℕ → ℝ)
    (hn : 0 < quantum.n_qubits) (hsh : 0 < quantum.shots)
    (htq : feedback.target_qubit < quantum.n_qubits)
    (hpq : feedback.perturb_qubit < quantum.n_qubits) :
    ∀ (idxs : List ℤ) (core : CoreState ℝ) (acc : List (StepResult ℝ)),
      core.state.length = 2 ^ quantum.n_qubits.toNat → l2normSq core.state = 1 →
      ∃ coreF results,
        runLoop realOps quantum signalCfg feedback decoderCfg rng core idxs acc =
          .ok (coreF, results) ∧
        results.map (fun r => r.step) = acc.map (fun r => r.step) ++ idxs ∧
        results.length = acc.length + idxs.length := by
  intro idxs
  induction idxs with
  | nil =>
    intro core acc _ _
    exact ⟨core, acc, rfl, by simp, by simp⟩
  | cons i rest ih =>
    intro core acc hlen hnorm
    obtain ⟨core2, res, hstep, hlen2, hnorm2, hres⟩ :=
      step_spec quantum signalCfg feedback decoderCfg rng core i hn hsh htq hpq hlen hnorm
    obtain ⟨coreF, results, hloop, hmap, hcount⟩ := ih core2 (acc ++ [res]) hlen2 hnorm2
    refine ⟨coreF, results, ?_, ?_, ?_⟩
    · rw [runLoop, hstep, bind_ok_eq]
      exact hloop
    · rw [hmap, List.map_append]
      simp [hres]
    · rw [hcount]
      simp only [List.length_append, List.length_cons, List.length_nil]
      omega

end RunProof

/-- C1: for every validly configured core whose feedback qubits lie below
`n_qubits`, and every integer `num_steps ≥ 1`, `run` executes the steps
sequentially and returns exactly `num_steps` StepResults whose `step`
fields are `0, 1, ..., num_steps-1` in order; for every `num_steps ≤ 0`
(in particular 0 and -1) it returns the invalid-argument error straight
from the guard, before any step could run. -/
theorem claim_c1 (quantum : QuantumConfig ℝ) (signalCfg : SignalConfig ℝ)
    (feedback : FeedbackConfig ℝ) (decoderCfg : DecoderConfig ℝ) (rng : ℕ → ℝ)
    (num_steps : ℤ) (hvq : validQuantum quantum)
    (htq : feedback.target_qubit < quantum.n_qubits)
    (hpq : feedback.perturb_qubit < quantum.n_qubits) :
    ∃ core0, mkCore realOps quantum = .ok core0 ∧
      (1 ≤ num_steps → ∃ coreF results,
        run realOps quantum signalCfg feedback decoderCfg rng core0 num_steps =
          .ok (coreF, results) ∧
        results.length = num_steps.toNat ∧
        results.map (fun r => r.step) = (List.range num_steps.toNat).map Int.ofNat) ∧
      (num_steps ≤ 0 →
        run realOps quantum signalCfg feedback decoderCfg rng core0 num_steps =
          .error "num_steps must be positive") := by
  obtain ⟨hn, hsh, -⟩ := hvq
  obtain ⟨core0, hmk, hlen0, hnorm0, -, -⟩ := mkCore_spec quantum
  refine ⟨core0, hmk, ?_, ?_⟩
  · intro hpos
    obtain ⟨coreF, results, hloop, hmap, hcount⟩ :=
      runLoop_spec quantum signalCfg feedback decoderCfg rng hn hsh htq hpq
        ((List.range num_steps.toNat).map Int.ofNat) core0 [] hlen0 hnorm0
    refine ⟨coreF, results, ?_, ?_, ?_⟩
    · rw [run, if_neg (by omega)]
      exact hloop
    · rw [hcount]
      simp
    · rw [hmap]
      simp
  · intro hneg
    rw [run, if_pos hneg]

/-- Witness for C1: a concrete single-qubit, single-shot, single-step
configuration (run also refuses 0 and -1 by the same theorem at those
arguments; the hypotheses do not mention `num_steps`). -/
theorem claim_c1_witness :
    validQuantum (⟨1, 1, 0, none⟩ : QuantumConfig ℝ) ∧
    ((⟨0, 0, 0, 0⟩ : FeedbackConfig ℝ)).target_qubit < (1 : ℤ) ∧
    ((⟨0, 0, 0, 0⟩ : FeedbackConfig ℝ)).perturb_qubit < (1 : ℤ) ∧
    (∃ core0, mkCore realOps (⟨1, 1, 0, none⟩ : QuantumConfig ℝ) = .ok core0 ∧
      (1 ≤ (1 : ℤ) → ∃ coreF results,
        run realOps ⟨1, 1, 0, none⟩ ⟨true, 1⟩ ⟨0, 0, 0, 0⟩ ⟨2, 1, 5⟩
          (fun _ => 0) core0 1 = .ok (coreF, results) ∧
        results.length = (1 : ℤ).toNat ∧
        results.map (fun r => r.step) = (List.range (1 : ℤ).toNat).map Int.ofNat) ∧
      ((1 : ℤ) ≤ 0 →
        run realOps ⟨1, 1, 0, none⟩ ⟨true, 1⟩ ⟨0, 0, 0, 0⟩ ⟨2, 1, 5⟩
          (fun _ => 0) core0 1 = .error "num_steps must be positive")) :=
  ⟨⟨by decide, by decide, le_refl 0⟩, by decide, by decide,
    claim_c1 ⟨1, 1, 0, none⟩ ⟨true, 1⟩ ⟨0, 0, 0, 0⟩ ⟨2, 1, 5⟩ (fun _ => 0) 1
      ⟨by decide, by decide, le_refl 0⟩ (by decide) (by decide)⟩

end MK
